import Mathlib

/-!
Verification of the offerings generator (`generator_core.py`).

Python strings are modelled as `List Char` (ASCII data, which is what the
generator manipulates).  Each definition below is a direct translation of the
corresponding Python function; source line numbers refer to
`src/generator_core.py`.
-/

namespace Offerings

/-- Python strings are modelled as lists of characters. -/
abbrev Str := List Char

/-- Helper to write string literals as `Str`. -/
def tl (s : String) : Str := s.toList

/-- Whitespace characters recognised by Python `str.split` / `str.strip`. -/
def isSpaceChar (c : Char) : Bool :=
  c = ' ' || c = '\t' || c = '\n' || c = '\r' || c = '\x0b' || c = '\x0c'

/-- ASCII lower-casing of a whole string, Python `str.lower()`. -/
def lowerStr (s : Str) : Str := s.map Char.toLower

/-- ASCII upper-casing of a whole string, Python `str.upper()`. -/
def upperStr (s : Str) : Str := s.map Char.toUpper

/-- Python `str.strip()`: drop leading and trailing whitespace. -/
def pyStrip (s : Str) : Str :=
  ((s.dropWhile isSpaceChar).reverse.dropWhile isSpaceChar).reverse

/-- Length of a list, used for termination measures below. -/
theorem dropWhile_length_le (p : Char → Bool) (l : Str) :
    (l.dropWhile p).length ≤ l.length := by
  induction l with
  | nil => simp [List.dropWhile]
  | cons c rest ih =>
    by_cases h : p c
    · simp only [List.dropWhile_cons_of_pos h, List.length_cons]
      omega
    · simp [List.dropWhile_cons_of_neg h]

/-- Fuelled worker for `pySplitWs`; the fuel only serves to make the
definition structurally recursive so that the kernel can evaluate it. -/
def pySplitWsF : Nat → Str → List Str
  | 0, _ => []
  | _ + 1, [] => []
  | fuel + 1, c :: rest =>
    if isSpaceChar c then pySplitWsF fuel rest
    else (c :: rest.takeWhile (fun d => !isSpaceChar d)) ::
           pySplitWsF fuel (rest.dropWhile (fun d => !isSpaceChar d))

/-- Python `str.split()` with no separator: split on whitespace runs,
dropping empty fragments. -/
def pySplitWs (s : Str) : List Str := pySplitWsF s.length s

theorem pySplitWsF_fuel :
    ∀ fuel1 fuel2 (s : Str), s.length ≤ fuel1 → s.length ≤ fuel2 →
      pySplitWsF fuel1 s = pySplitWsF fuel2 s := by
  intro fuel1
  induction fuel1 with
  | zero =>
    intro fuel2 s h1 h2
    have : s = [] := by
      cases s with
      | nil => rfl
      | cons c r => simp at h1
    subst this
    cases fuel2 <;> rfl
  | succ n ih =>
    intro fuel2 s h1 h2
    cases s with
    | nil => cases fuel2 <;> rfl
    | cons c rest =>
      cases fuel2 with
      | zero => simp at h2
      | succ m =>
        simp only [pySplitWsF]
        by_cases hc : isSpaceChar c
        · simp only [hc, if_true]
          exact ih m rest (by simp at h1; omega) (by simp at h2; omega)
        · simp only [hc, if_false]
          have hd := dropWhile_length_le (fun d => !isSpaceChar d) rest
          rw [ih m (rest.dropWhile (fun d => !isSpaceChar d))
            (by simp at h1; omega) (by simp at h2; omega)]
          simp

/-- Unfolding equation for `pySplitWs` on a cons cell. -/
theorem pySplitWs_cons (c : Char) (rest : Str) :
    pySplitWs (c :: rest) =
      if isSpaceChar c then pySplitWs rest
      else (c :: rest.takeWhile (fun d => !isSpaceChar d)) ::
             pySplitWs (rest.dropWhile (fun d => !isSpaceChar d)) := by
  show pySplitWsF (rest.length + 1) (c :: rest) = _
  simp only [pySplitWsF]
  by_cases hc : isSpaceChar c
  · simp [hc, pySplitWs]
  · simp only [hc, if_false, pySplitWs]
    have hd := dropWhile_length_le (fun d => !isSpaceChar d) rest
    rw [pySplitWsF_fuel rest.length (rest.dropWhile (fun d => !isSpaceChar d)).length
      (rest.dropWhile (fun d => !isSpaceChar d)) hd (le_refl _)]

/-- Python `" ".join(...)`. -/
def joinSpace : List Str → Str
  | [] => []
  | [w] => w
  | w :: ws => w ++ ' ' :: joinSpace ws

/-- Python `"\n".join(...)`. -/
def joinNl : List Str → Str
  | [] => []
  | [w] => w
  | w :: ws => w ++ '\n' :: joinNl ws

/-- Whitespace normalisation used throughout the generator:
`' '.join(x.split())`. -/
def normWs (s : Str) : Str := joinSpace (pySplitWs s)

/-- Python `str.split(sep)` for a one-character separator: keeps empty
fragments, always returns at least one fragment. -/
def splitOnChar (sep : Char) : Str → List Str
  | [] => [[]]
  | c :: rest =>
    if c = sep then [] :: splitOnChar sep rest
    else
      match splitOnChar sep rest with
      | f :: fs => (c :: f) :: fs
      | [] => [[c]]

/-- Python `str.splitlines()` (covering the separators that occur here:
`\n`, `\r`, `\r\n`; no trailing empty line). -/
def pySplitlines : Str → List Str
  | [] => []
  | c :: rest =>
    if c = '\n' then [] :: pySplitlines rest
    else if c = '\r' then
      match rest with
      | '\n' :: rest2 => [] :: pySplitlines rest2
      | [] => [[]]
      | d :: rest2 => [] :: pySplitlines (d :: rest2)
    else
      match pySplitlines rest with
      | [] => [[c]]
      | f :: fs => (c :: f) :: fs

/-- Python substring test `needle in hay`. -/
def isSubstr : Str → Str → Bool
  | n, [] => n.isEmpty
  | n, c :: t => n.isPrefixOf (c :: t) || isSubstr n t

/-- ASCII lowercase letter. -/
def isLowerAlpha (c : Char) : Bool := 'a' ≤ c && c ≤ 'z'

/-- ASCII uppercase letter. -/
def isUpperAlpha (c : Char) : Bool := 'A' ≤ c && c ≤ 'Z'

/-- ASCII cased character. -/
def isCasedChar (c : Char) : Bool := isLowerAlpha c || isUpperAlpha c

/-- Python `str.isupper()` on ASCII data: at least one cased character and
no lowercase character. -/
def pyIsUpper (s : Str) : Bool :=
  s.any isCasedChar && s.all (fun c => !isLowerAlpha c)

/-- Regex word character `\w` (ASCII). -/
def isWordChar (c : Char) : Bool := c.isAlpha || c.isDigit || c = '_'

/-- Case-insensitive literal matcher: `matchCI pat s` consumes a prefix of
`s` whose lower-casing is the (lowercase) pattern `pat`, returning the rest. -/
def matchCI : Str → Str → Option Str
  | [], rest => some rest
  | _ :: _, [] => none
  | p :: ps, c :: cs => if c.toLower = p then matchCI ps cs else none

/-- Does the regex `\bincident\s+solving\b` (case-insensitive) match at the
start of `s`?  The leading `\b` is accounted for by the caller. -/
def incSolvAt (s : Str) : Bool :=
  match matchCI (tl "incident") s with
  | none => false
  | some r1 =>
    match r1 with
    | [] => false
    | c :: _ =>
      if isSpaceChar c then
        match matchCI (tl "solving") (r1.dropWhile isSpaceChar) with
        | none => false
        | some [] => true
        | some (d :: _) => !isWordChar d
      else false

/-- Scanner for `re.search(r"\bincident\s+solving\b", name, re.IGNORECASE)`:
`prevW` records whether the previous character was a word character
(for the left word boundary). -/
def hasIncSolvAux : Bool → Str → Bool
  | _, [] => false
  | prevW, c :: cs => (!prevW && incSolvAt (c :: cs)) || hasIncSolvAux (isWordChar c) cs

/-- `re.search(r"\bincident\s+solving\b", name, re.IGNORECASE)` as a Bool. -/
def hasIncSolv (s : Str) : Bool := hasIncSolvAux false s

/-- Is the token spelled `incident` (any case)? -/
def isIncTok (t : Str) : Bool := lowerStr t == tl "incident"

/-- Is the token spelled `solving` (any case)? -/
def isSolvTok (t : Str) : Bool := lowerStr t == tl "solving"

/-- First pass of `ensure_incident_naming` (source lines 38-56): walk the
token list; after every token spelled `incident` insert the literal
`solving` (skipping an immediately following `solving` token); drop every
other standalone `solving` token. -/
def pass1 : List Str → List Str
  | [] => []
  | [p] =>
    if isIncTok p then [p, tl "solving"]
    else if isSolvTok p then []
    else [p]
  | p :: q :: rest2 =>
    if isIncTok p then
      if isSolvTok q then p :: tl "solving" :: pass1 rest2
      else p :: tl "solving" :: pass1 (q :: rest2)
    else if isSolvTok p then pass1 (q :: rest2)
    else p :: pass1 (q :: rest2)

/-- Scan for the first token spelled `solving`, returning the tokens before
it and, when found, that token together with the remainder
(the inner `while` loop at source lines 72-75). -/
def scanSolv : List Str → List Str × Option (Str × List Str)
  | [] => ([], none)
  | q :: rest =>
    if isSolvTok q then ([], some (q, rest))
    else
      match scanSolv rest with
      | (a, r) => (q :: a, r)

theorem scanSolv_length (l : List Str) :
    ∀ a q r, scanSolv l = (a, some (q, r)) → r.length < l.length := by
  induction l with
  | nil => intro a q r h; simp [scanSolv] at h
  | cons x rest ih =>
    intro a q r h
    by_cases hx : isSolvTok x
    · simp only [scanSolv, if_pos hx] at h
      cases h
      simp
    · simp only [scanSolv, if_neg hx] at h
      rcases hrec : scanSolv rest with ⟨a2, r2⟩
      rw [hrec] at h
      cases h
      have := ih a2 q r hrec
      simp
      omega

/-- Was the previous original token spelled `incident`? -/
def prevIncTok : Option Str → Bool
  | some q => isIncTok q
  | none => false

/-- Fuelled worker for the second pass of `ensure_incident_naming`
(source lines 60-91): `prev` is the token at index `i-1` of the scanned
list (`none` at the start).  The fuel only makes the definition
structurally recursive. -/
def pass2F : Nat → Option Str → List Str → List Str
  | 0, _, _ => []
  | _ + 1, _, [] => []
  | fuel + 1, prev, p :: rest =>
    if prevIncTok prev && isSolvTok p then
      p :: pass2F fuel (some p) rest
    else if isIncTok p then
      match scanSolv rest with
      | (apps, some (q, rest2)) => p :: tl "solving" :: (apps ++ pass2F fuel (some q) rest2)
      | (apps, none) => p :: tl "solving" :: apps
    else p :: pass2F fuel (some p) rest

/-- Second pass of `ensure_incident_naming`. -/
def pass2 (prev : Option Str) (l : List Str) : List Str := pass2F l.length prev l

theorem pass2F_fuel :
    ∀ fuel1 fuel2 prev (l : List Str), l.length ≤ fuel1 → l.length ≤ fuel2 →
      pass2F fuel1 prev l = pass2F fuel2 prev l := by
  intro fuel1
  induction fuel1 with
  | zero =>
    intro fuel2 prev l h1 h2
    have : l = [] := by
      cases l with
      | nil => rfl
      | cons c r => simp at h1
    subst this
    cases fuel2 <;> rfl
  | succ n ih =>
    intro fuel2 prev l h1 h2
    cases l with
    | nil => cases fuel2 <;> rfl
    | cons p rest =>
      cases fuel2 with
      | zero => simp at h2
      | succ m =>
        simp only [pass2F]
        by_cases hc : prevIncTok prev && isSolvTok p
        · have e := ih m (some p) rest (by simp at h1; omega) (by simp at h2; omega)
          simp [hc, e]
        · by_cases hi : isIncTok p
          · rcases hscan : scanSolv rest with ⟨apps, r⟩
            cases r with
            | none => simp [hc, hi, hscan]
            | some qr =>
              rcases qr with ⟨q, rest2⟩
              have hlen := scanSolv_length rest apps q rest2 hscan
              have e := ih m (some q) rest2 (by simp at h1; omega) (by simp at h2; omega)
              simp [hc, hi, hscan, e]
          · have e := ih m (some p) rest (by simp at h1; omega) (by simp at h2; omega)
            simp [hc, hi, e]

/-- Unfolding equation for `pass2` on a cons cell. -/
theorem pass2_cons (prev : Option Str) (p : Str) (rest : List Str) :
    pass2 prev (p :: rest) =
      if prevIncTok prev && isSolvTok p then
        p :: pass2 (some p) rest
      else if isIncTok p then
        match scanSolv rest with
        | (apps, some (q, rest2)) => p :: tl "solving" :: (apps ++ pass2 (some q) rest2)
        | (apps, none) => p :: tl "solving" :: apps
      else p :: pass2 (some p) rest := by
  show pass2F (rest.length + 1) prev (p :: rest) = _
  simp only [pass2F]
  by_cases hc : prevIncTok prev && isSolvTok p
  · simp [hc, pass2]
  · simp only [hc, if_false]
    by_cases hi : isIncTok p
    · simp only [hi, if_true]
      rcases hscan : scanSolv rest with ⟨apps, r⟩
      cases r with
      | none => rfl
      | some qr =>
        rcases qr with ⟨q, rest2⟩
        have hlen := scanSolv_length rest apps q rest2 hscan
        simp only [pass2]
        rw [pass2F_fuel rest.length rest2.length (some q) rest2 (by omega) (le_refl _)]
    · simp only [hi, if_false, pass2]
      rfl

/-- `ensure_incident_naming` (source lines 28-93). -/
def ensureIncidentNaming (name : Str) : Str :=
  if hasIncSolv name then name
  else joinSpace (pass2 none (pass1 (pySplitWs name)))

/-- Part of `extract_parent_info`: the characters strictly before the first
`]`, together with the rest; `none` when a newline (which `.` cannot match)
or the end of the string is reached first. -/
def takeUntilRBracket : Str → Option (Str × Str)
  | [] => none
  | c :: rest =>
    if c = ']' then some ([], rest)
    else if c = '\n' then none
    else
      match takeUntilRBracket rest with
      | some (a, r) => some (c :: a, r)
      | none => none

/-- Attempt of the regex `\[Parent\s+(.*?)\]` (case-insensitive) at a
position just after a literal `[`: requires `Parent`, at least one
whitespace character, then the lazily captured group up to the first `]`. -/
def parentMatchAt (rest : Str) : Option Str :=
  match matchCI (tl "parent") rest with
  | none => none
  | some r1 =>
    match r1 with
    | [] => none
    | d :: _ =>
      if isSpaceChar d then
        match takeUntilRBracket (r1.dropWhile isSpaceChar) with
        | some (a, _) => some (pyStrip a)
        | none => none
      else none

/-- Scanner for `re.search(r"\[Parent\s+(.*?)\]", po, re.I)`; returns the
stripped captured group, or `""` when there is no match
(`extract_parent_info`, source lines 95-100). -/
def extractParentInfoAux : Str → Str
  | [] => []
  | c :: rest =>
    if c = '[' then
      match parentMatchAt rest with
      | some a => a
      | none => extractParentInfoAux rest
    else extractParentInfoAux rest

/-- `extract_parent_info` (source lines 95-100). -/
def extractParentInfo (po : Str) : Str := extractParentInfoAux po

/-- `extract_catalog_name` (source lines 102-107): the stripped text after
the first `]`, or `""` when there is none. -/
def extractCatalogName : Str → Str
  | [] => []
  | c :: rest => if c = ']' then pyStrip rest else extractCatalogName rest

/-- The country set with the forced `DS` division
(`["UA", "MD", "RO", "TR"]`). -/
def dsOverride : List Str := [tl "UA", tl "MD", tl "RO", tl "TR"]

/-- `get_division_and_country` (source lines 109-134). -/
def getDivisionAndCountry (parentContent country deliveringTag : Str) : Str × Str :=
  if dsOverride.contains country then (tl "DS", country)
  else
    let parts := pySplitWs parentContent
    let division :=
      match parts.find? (fun p => p == tl "HS" || p == tl "DS") with
      | some d => d
      | none =>
        match pySplitWs deliveringTag with
        | d0 :: _ => if d0 == tl "HS" || d0 == tl "DS" then d0 else []
        | [] => []
    if division = [] then (tl "HS", country) else (division, country)

/-- The `no_prod_keywords` list (source line 440). -/
def noProdKeywords : List Str :=
  [tl "hardware", tl "mailbox", tl "network", tl "mobile", tl "security"]

/-- The keyword test of source lines 441-445: some no-prod keyword occurs in
the lowered parent offering, catalog name, or parent content. -/
def excludeProdAll (po catalogName parentContent : Str) : Bool :=
  noProdKeywords.any fun kw =>
    isSubstr kw (lowerStr po) || isSubstr kw (lowerStr catalogName) ||
      isSubstr kw (lowerStr parentContent)

/-- The recomputed keyword test of the standard branch
(source lines 696-697): only the lowered catalog name is inspected. -/
def excludeProdStd (catalogName : Str) : Bool :=
  noProdKeywords.any fun kw => isSubstr kw (lowerStr catalogName)

/-- Country parse of the standard builder entry (source lines 432-437):
first token of length 2, uppercase, not one of `HS DS IT HR`. -/
def findCountryStd : List Str → Str
  | [] => []
  | p :: ps =>
    if p.length == 2 && pyIsUpper p &&
        !(p == tl "HS" || p == tl "DS" || p == tl "IT" || p == tl "HR") then p
    else findCountryStd ps

/-- Parse loop of the standard (else) branch of `build_standard_name`
(source lines 648-663).  Returns `(division, countryCode, dept, otherParts)`,
with later matches overwriting earlier ones for the scalar fields. -/
def stdParse : List Str → Str → Str → Str → List Str → Str × Str × Str × List Str
  | [], d, cc, dep, oth => (d, cc, dep, oth)
  | p :: ps, d, cc, dep, oth =>
    if p == tl "HS" || p == tl "DS" then stdParse ps p cc dep oth
    else if p.length == 2 && pyIsUpper p &&
        !(p == tl "HS" || p == tl "DS" || p == tl "IT" || p == tl "HR") then
      stdParse ps d p dep oth
    else if p == tl "IT" || p == tl "HR" || p == tl "Medical" || p == tl "Business Services" then
      stdParse ps d cc p oth
    else stdParse ps d cc dep (oth ++ [p])

/-- Bracket-prefix token list of the standard (else) branch
(source lines 666-687). -/
def stdPrefixParts (srOrIm country division countryCode dept : Str)
    (otherParts : List Str) : List Str :=
  let base :=
    [srOrIm] ++
      (if dsOverride.contains country then [tl "DS"]
       else if division ≠ [] then [division] else [tl "HS"]) ++
      (if countryCode ≠ [] then [countryCode] else []) ++ otherParts
  if otherParts.contains (tl "RecP") && dept = [] then base ++ [tl "IT"]
  else if dept ≠ [] then base ++ [dept]
  else base

/-- App token appended by the standard branch (source lines 700-711):
lower-cased when the name so far mentions hardware, except `UPS`. -/
def appendApp (currentName app : Str) : Str :=
  if isSubstr (tl "hardware") (lowerStr currentName) then
    if upperStr app == tl "UPS" then tl "UPS" else lowerStr app
  else app

/-- Parse loop of the `Medical` branch (source lines 454-460). -/
def medParse : List Str → Str → Str → List Str → Str × Str × List Str
  | [], d, c, t => (d, c, t)
  | p :: ps, d, c, t =>
    if p == tl "HS" || p == tl "DS" then medParse ps p c t
    else if p.length == 2 && pyIsUpper p && !(p == tl "IT" || p == tl "HR") then
      medParse ps d p t
    else if !(p.length == 2 && pyIsUpper p) then medParse ps d c (t ++ [p])
    else medParse ps d c t

/-- Parse loop of the `DAK` branch (source lines 488-492). -/
def dakParse : List Str → Str → Str → Str × Str
  | [], d, c => (d, c)
  | p :: ps, d, c =>
    if p == tl "HS" || p == tl "DS" then dakParse ps p c
    else if p.length == 2 && pyIsUpper p &&
        !(p == tl "IT" || p == tl "HR" || p == tl "DAK") then dakParse ps d p
    else dakParse ps d c

/-- Division/country prefix fragment shared by the `Medical`/`DAK`/`HR`
branches (for example source lines 467-474): forced `DS` for the override
countries, otherwise the parsed division and country when present. -/
def divCountryParts (country division : Str) : List Str :=
  if dsOverride.contains country then [tl "DS", country]
  else
    (if division ≠ [] then [division] else []) ++
      (if country ≠ [] then [country] else [])

/-- Topic tokens of the `HR` branch (source lines 539-544): every token that
is not `HS`/`DS` and not a two-letter uppercase token. -/
def hrTopicParts (parts : List Str) : List Str :=
  parts.filter fun p =>
    !(p == tl "HS" || p == tl "DS") && !(p.length == 2 && pyIsUpper p)

/-- Parse loop of the `IT` branch (source lines 561-570). -/
def itParse : List Str → Str → Str → List Str → Str × Str × List Str
  | [], d, c, t => (d, c, t)
  | p :: ps, d, c, t =>
    if p == tl "HS" || p == tl "DS" then itParse ps p c t
    else if p.length == 2 && pyIsUpper p && !(p == tl "IT" || p == tl "HR") then
      itParse ps d p t
    else if !(p == tl "HS" || p == tl "DS" || p == tl "RecP") &&
        !(p.length == 2 && pyIsUpper p) then itParse ps d c (t ++ [p])
    else itParse ps d c t

/-- Fallback topic of the `IT` branch (source lines 576-581): the first word
of the catalog name not in the stop-word list. -/
def itFallbackTopic (catalogName : Str) : Str :=
  let stop := [tl "the", tl "a", tl "an", tl "and", tl "or", tl "for",
               tl "of", tl "in", tl "on", tl "to"]
  match (pySplitWs catalogName).find? (fun w => !stop.contains (lowerStr w)) with
  | some w => w
  | none => []

/-- Division token of the `IT` branch prefix (source lines 585-596). -/
def itDivisionParts (country division : Str) (receiver : Option Str) : List Str :=
  match receiver with
  | some r =>
    if country = tl "DE" then
      [match pySplitWs r with
       | d0 :: _ => d0
       | [] => []]
    else
      if dsOverride.contains country then [tl "DS"]
      else if division ≠ [] then [division] else [tl "HS"]
  | none =>
    if dsOverride.contains country then [tl "DS"]
    else if division ≠ [] then [division] else [tl "HS"]

/-- Bracket-prefix token list of the `IT` branch (source lines 583-600). -/
def itPrefixParts (srOrIm country division : Str) (receiver : Option Str) : List Str :=
  [srOrIm] ++ itDivisionParts country division receiver ++
    (if country ≠ [] then [country] else []) ++ [tl "IT"]

/-- `build_standard_name` (source lines 423-723). -/
def buildStandardName (po srOrIm : Str) (app : Option Str) (sched : Str)
    (specialDept : Option Str) (receiver : Option Str) : Str :=
  let parentContent := extractParentInfo po
  let catalogName := extractCatalogName po
  let parts := pySplitWs parentContent
  let country := findCountryStd parts
  let excludeProd := excludeProdAll po catalogName parentContent
  if specialDept = some (tl "Medical") then
    match medParse parts [] [] [] with
    | (division, mCountry, topicParts) =>
      let topic := if topicParts ≠ [] then joinSpace topicParts else tl "Software"
      let prefixParts := [srOrIm] ++ divCountryParts mCountry division ++ [tl "Medical"]
      ensureIncidentNaming
        ('[' :: (joinSpace prefixParts ++ tl "] " ++ topic ++ [' '] ++
          lowerStr catalogName ++ [' '] ++ sched))
  else if specialDept = some (tl "DAK") then
    match dakParse parts [] [] with
    | (division, dCountry) =>
      let prefixParts := [srOrIm] ++ divCountryParts dCountry division ++ [tl "Business Services"]
      match app with
      | some a =>
        ensureIncidentNaming
          ('[' :: (joinSpace prefixParts ++ tl "] " ++ catalogName ++ [' '] ++
            a ++ [' '] ++ sched))
      | none =>
        ensureIncidentNaming
          ('[' :: (joinSpace prefixParts ++ tl "] " ++ catalogName ++ [' '] ++ sched))
  else if specialDept = some (tl "HR") then
    match dakParse parts [] [] with
    | (_, _) =>
      let division := (medParse parts [] [] []).1
      let hCountry := (medParse parts [] [] []).2.1
      let topicParts := hrTopicParts parts
      let topic := if topicParts ≠ [] then joinSpace topicParts else tl "Software"
      let prefixParts := [srOrIm] ++ divCountryParts hCountry division ++ [tl "HR"]
      match app with
      | some a =>
        ensureIncidentNaming
          ('[' :: (joinSpace prefixParts ++ tl "] " ++ topic ++ [' '] ++
            lowerStr catalogName ++ [' '] ++ a ++ [' '] ++ sched))
      | none =>
        ensureIncidentNaming
          ('[' :: (joinSpace prefixParts ++ tl "] " ++ topic ++ [' '] ++
            lowerStr catalogName ++ [' '] ++ sched))
  else if specialDept = some (tl "IT") then
    match itParse parts [] [] [] with
    | (division, iCountry, topicParts) =>
      let topic0 := joinSpace topicParts
      let topic := if topic0 ≠ [] then topic0 else itFallbackTopic catalogName
      let prefixParts := itPrefixParts srOrIm iCountry division receiver
      let headPart :=
        if topic ≠ [] then
          '[' :: (joinSpace prefixParts ++ tl "] " ++ topic)
        else '[' :: (joinSpace prefixParts ++ tl "]")
      let nameParts0 := [headPart, lowerStr catalogName]
      let nameParts1 :=
        match app with
        | some a => nameParts0 ++ [appendApp (joinSpace nameParts0) a]
        | none => nameParts0
      let nameParts2 :=
        if srOrIm = tl "IM" then nameParts1 ++ [tl "solving"] else nameParts1
      let topicExcludeProd := noProdKeywords.any fun kw => isSubstr kw (lowerStr topic)
      let nameParts3 :=
        if !excludeProd && !topicExcludeProd then nameParts2 ++ [tl "Prod"]
        else nameParts2
      ensureIncidentNaming (joinSpace (nameParts3 ++ [sched]))
  else
    match stdParse parts [] [] [] [] with
    | (division, countryCode, dept, otherParts) =>
      let prefixParts := stdPrefixParts srOrIm country division countryCode dept otherParts
      let prefixStr := '[' :: (joinSpace prefixParts ++ tl "]")
      let finalParts0 := [prefixStr, catalogName]
      let excludeProdLocal := excludeProdStd catalogName
      let finalParts1 :=
        match app with
        | some a => finalParts0 ++ [appendApp (joinSpace finalParts0) a]
        | none => finalParts0
      let finalParts2 :=
        if srOrIm = tl "IM" then finalParts1 ++ [tl "solving"] else finalParts1
      let finalParts3 :=
        if !excludeProdLocal then finalParts2 ++ [tl "Prod"] else finalParts2
      ensureIncidentNaming (joinSpace (finalParts3 ++ [sched]))

/-- `commit_block` (source lines 778-793). -/
def commitBlock (cc sched rspDuration rslDuration srOrIm : Str) : Str :=
  if srOrIm = tl "IM" then
    joinNl
      [ '[' :: (cc ++ tl "] SLA IM RSP " ++ sched ++ tl " P1-P4 " ++ rspDuration),
        '[' :: (cc ++ tl "] SLA IM RSL " ++ sched ++ tl " P1-P4 " ++ rslDuration) ]
  else
    joinNl
      [ '[' :: (cc ++ tl "] SLA SR RSP " ++ sched ++ tl " P1-P4 " ++ rspDuration),
        '[' :: (cc ++ tl "] SLA SR RSL " ++ sched ++ tl " P1-P4 " ++ rslDuration),
        '[' :: (cc ++ tl "] OLA SR RSL " ++ sched ++ tl " P1-P4 " ++ rslDuration) ]

/-- Parse loop of `build_corp_name` (source lines 735-739); later matches
overwrite earlier ones, there is no `break`. -/
def corpParse : List Str → Str → Str → Str × Str
  | [], c, t => (c, t)
  | p :: ps, c, t =>
    if p.length == 2 && pyIsUpper p && !(p == tl "HS" || p == tl "DS") then
      corpParse ps p t
    else if !(p == tl "HS" || p == tl "DS" || p == tl "Parent" || p == tl "RecP") then
      corpParse ps c p
    else corpParse ps c t

/-- Parse loop of `build_corp_it_name` / `build_corp_dedicated_name` /
`build_recp_name` (source lines 221-226, 289-294, 349-354): the topic
branch ends the loop with `break`. -/
def corpBreakParse : List Str → Str → Str × Str
  | [], c => (c, [])
  | p :: ps, c =>
    if p.length == 2 && pyIsUpper p && !(p == tl "HS" || p == tl "DS") then
      corpBreakParse ps p
    else if !(p == tl "HS" || p == tl "DS" || p == tl "Parent" || p == tl "RecP") &&
        !(p.length == 2 && pyIsUpper p) then (c, p)
    else corpBreakParse ps c

/-- Bracket-prefix token list of `build_corp_name` (source lines 742-762). -/
def corpPrefixParts (srOrIm country division receiver deliveringTag topic : Str) :
    List Str :=
  [srOrIm] ++
    (if deliveringTag ≠ [] then
       (if dsOverride.contains country then [tl "DS", country]
        else (pySplitWs deliveringTag).take 2)
     else [division, country]) ++
    [tl "CORP", receiver] ++
    (if topic ≠ [] then [topic] else [])

/-- `build_corp_name` (source lines 725-776). -/
def buildCorpName (po srOrIm : Str) (app : Option Str) (sched receiver deliveringTag : Str) :
    Str :=
  let parentContent := extractParentInfo po
  let catalogName := extractCatalogName po
  let parts := pySplitWs parentContent
  match corpParse parts [] [] with
  | (country, topic) =>
    let division := (getDivisionAndCountry parentContent country deliveringTag).1
    let pre := '[' :: (joinSpace (corpPrefixParts srOrIm country division receiver
      deliveringTag topic) ++ tl "] ")
    if srOrIm = tl "SR" then
      match app with
      | some a =>
        ensureIncidentNaming (pre ++ catalogName ++ [' '] ++ a ++ tl " Prod " ++ sched)
      | none => ensureIncidentNaming (pre ++ catalogName ++ tl " Prod " ++ sched)
    else
      match app with
      | some a =>
        ensureIncidentNaming (pre ++ catalogName ++ [' '] ++ a ++ tl " solving Prod " ++ sched)
      | none => ensureIncidentNaming (pre ++ catalogName ++ tl " solving Prod " ++ sched)

/-- Bracket-prefix token list of `build_recp_name` (source lines 357-395). -/
def recpPrefixParts (srOrIm country parentDivision division deliveringTag : Str) :
    List Str :=
  [srOrIm] ++
    (if dsOverride.contains country then [tl "DS", country]
     else (if parentDivision ≠ [] then [parentDivision] else []) ++
       (if country ≠ [] then [country] else [])) ++
    [tl "CORP"] ++
    (if deliveringTag ≠ [] then
       (if dsOverride.contains country then [tl "DS", country]
        else pySplitWs deliveringTag)
     else
       (if dsOverride.contains country then [tl "DS", country]
        else [division, country])) ++
    [tl "IT"]

/-- `build_recp_name` (source lines 339-421). -/
def buildRecpName (po srOrIm : Str) (app : Option Str) (sched receiver deliveringTag : Str) :
    Str :=
  let parentContent := extractParentInfo po
  let catalogName := extractCatalogName po
  let parts := pySplitWs parentContent
  match corpBreakParse parts [] with
  | (country, topic) =>
    let division := (getDivisionAndCountry parentContent country deliveringTag).1
    let parentDivision :=
      match parts.find? (fun p => p == tl "HS" || p == tl "DS") with
      | some d => d
      | none => []
    let prefixStr := '[' :: (joinSpace (recpPrefixParts srOrIm country parentDivision
      division deliveringTag) ++ tl "]")
    let nameParts :=
      [prefixStr] ++ (if topic ≠ [] then [topic] else []) ++ [lowerStr catalogName] ++
        (match app with | some a => [a] | none => []) ++
        (if srOrIm = tl "IM" then [tl "solving"] else []) ++ [tl "Prod", sched]
    ensureIncidentNaming (joinSpace nameParts)

/-- Bracket-prefix token list of `build_corp_it_name` (source lines 229-253). -/
def corpItPrefixParts (srOrIm country division receiver deliveringTag : Str) : List Str :=
  [srOrIm] ++
    (if deliveringTag ≠ [] then
       (if dsOverride.contains country then [tl "DS", country]
        else pySplitWs deliveringTag)
     else [division, country]) ++
    [tl "CORP"] ++
    (if receiver ≠ [] then [receiver] else [division, country]) ++
    [tl "IT"]

/-- `build_corp_it_name` (source lines 211-277); note that no `Prod` token is
ever appended (source line 272 is commented out). -/
def buildCorpItName (po srOrIm : Str) (app : Option Str) (sched receiver deliveringTag : Str) :
    Str :=
  let parentContent := extractParentInfo po
  let catalogName := extractCatalogName po
  let parts := pySplitWs parentContent
  match corpBreakParse parts [] with
  | (country, topic0) =>
    let division := (getDivisionAndCountry parentContent country deliveringTag).1
    let topic := if topic0 ≠ [] then topic0 else tl "Software"
    let prefixStr := '[' :: (joinSpace (corpItPrefixParts srOrIm country division
      receiver deliveringTag) ++ tl "]")
    let nameParts :=
      [prefixStr, topic, lowerStr catalogName] ++
        (match app with | some a => [a] | none => []) ++
        (if srOrIm = tl "IM" then [tl "solving"] else []) ++ [sched]
    ensureIncidentNaming (joinSpace nameParts)

/-- Bracket-prefix token list of `build_corp_dedicated_name`
(source lines 297-317). -/
def corpDedicatedPrefixParts (srOrIm country division receiver deliveringTag : Str) :
    List Str :=
  [srOrIm] ++
    (if deliveringTag ≠ [] then
       (if dsOverride.contains country then [tl "DS", country]
        else pySplitWs deliveringTag)
     else [division, country]) ++
    [tl "CORP", receiver, tl "Dedicated Services"]

/-- `build_corp_dedicated_name` (source lines 279-337). -/
def buildCorpDedicatedName (po srOrIm : Str) (app : Option Str)
    (sched receiver deliveringTag : Str) : Str :=
  let parentContent := extractParentInfo po
  let catalogName := extractCatalogName po
  let parts := pySplitWs parentContent
  match corpBreakParse parts [] with
  | (country, _) =>
    let division := (getDivisionAndCountry parentContent country deliveringTag).1
    let prefixStr := '[' :: (joinSpace (corpDedicatedPrefixParts srOrIm country division
      receiver deliveringTag) ++ tl "]")
    let nameParts :=
      [prefixStr, catalogName] ++
        (match app with | some a => [a] | none => []) ++
        (if srOrIm = tl "IM" then [tl "solving"] else []) ++ [tl "Prod", sched]
    ensureIncidentNaming (joinSpace nameParts)

/-- Parse loop of `build_lvl2_name` (source lines 158-166); later matches
overwrite earlier ones.  Returns `(srImPos, country, division, dept)`. -/
def lvl2Parse : List Str → Str → Str → Str → Str → Str × Str × Str × Str
  | [], s, c, d, dep => (s, c, d, dep)
  | p :: ps, s, c, d, dep =>
    if p == tl "SR" || p == tl "IM" then lvl2Parse ps p c d dep
    else if p.length == 2 && pyIsUpper p &&
        !(p == tl "HS" || p == tl "DS" || p == tl "IT" || p == tl "HR") then
      lvl2Parse ps s p d dep
    else if p == tl "HS" || p == tl "DS" then lvl2Parse ps s c p dep
    else if p == tl "IT" || p == tl "HR" || p == tl "Medical" ||
        p == tl "Business Services" then lvl2Parse ps s c d p
    else lvl2Parse ps s c d dep

/-- Bracket-prefix token list of `build_lvl2_name` (source lines 169-186). -/
def lvl2PrefixParts (srImPos srOrIm country division dept : Str) : List Str :=
  [if srImPos ≠ [] then srImPos else srOrIm] ++
    (if dsOverride.contains country then [tl "DS"]
     else if division ≠ [] then [division] else [tl "HS"]) ++
    (if country ≠ [] then [country] else []) ++
    (if dept ≠ [] then [dept] else [])

/-- `build_lvl2_name` (source lines 136-209). -/
def buildLvl2Name (po srOrIm : Str) (app : Option Str) (sched serviceTypeLvl2 : Str) :
    Str :=
  let parentContent0 := extractParentInfo po
  let catalogName := extractCatalogName po
  let parts0 := pySplitWs parentContent0
  let hasSrIm := parts0.contains (tl "SR") || parts0.contains (tl "IM")
  let parts := if hasSrIm then parts0 else pySplitWs (joinSpace (srOrIm :: parts0))
  match lvl2Parse parts [] [] [] [] with
  | (srImPos, country, division, dept) =>
    let prefixStr := '[' :: (joinSpace (lvl2PrefixParts srImPos srOrIm country
      division dept) ++ tl "]")
    let nameParts0 := [prefixStr, catalogName]
    let nameParts1 := match app with | some a => nameParts0 ++ [a] | none => nameParts0
    let nameParts2 :=
      if !isSubstr (tl "microsoft") (lowerStr (joinSpace nameParts1)) then
        nameParts1 ++ [tl "Prod"]
      else nameParts1
    let nameParts3 :=
      if serviceTypeLvl2 ≠ [] then nameParts2 ++ [serviceTypeLvl2] else nameParts2
    ensureIncidentNaming (joinSpace (nameParts3 ++ [sched]))

/-- `parse_keywords` (source lines 1113-1125): returns the keyword list and
whether AND logic applies. -/
def parseKeywords (ks : Str) : List Str × Bool :=
  if pyStrip ks = [] then ([], false)
  else if ks.contains ',' then
    (((splitOnChar ',' ks).map pyStrip).filter (fun k => k ≠ []), true)
  else
    (((splitOnChar '\n' ks).map pyStrip).filter (fun k => k ≠ []), false)

/-- One column of `row_keywords_ok` (source lines 1127-1176): does the
target value pass the keyword string? -/
def keywordColOk (ks target : Str) : Bool :=
  let pk := parseKeywords ks
  if pk.1 = [] then true
  else
    let t := normWs (lowerStr target)
    if pk.2 then pk.1.all (fun k => isSubstr (lowerStr k) t)
    else pk.1.any (fun k => isSubstr (lowerStr k) t)

/-- `row_keywords_ok` (source lines 1127-1176) over the two filtered
columns. -/
def rowKeywordsOk (ksParent ksChild parentVal childVal : Str) : Bool :=
  keywordColOk ksParent parentVal && keywordColOk ksChild childVal

/-- `row_excluded_keywords_ok` (source lines 1178-1205); note that unlike
`row_keywords_ok` the targets are lower-cased but not
whitespace-normalised. -/
def rowExcludedOk (ksExcl parentVal childVal : Str) : Bool :=
  match parseKeywords ksExcl with
  | (kws, useAnd) =>
    if kws = [] then true
    else
      let p := lowerStr parentVal
      let n := lowerStr childVal
      if useAnd then
        !((kws.all fun k => isSubstr (lowerStr k) p) ||
          (kws.all fun k => isSubstr (lowerStr k) n))
      else
        !((kws.any fun k => isSubstr (lowerStr k) p) ||
          (kws.any fun k => isSubstr (lowerStr k) n))

/-- The lifecycle discard set (source line 26). -/
def discardLc : List Str :=
  [tl "retired", tl "retiring", tl "end of life", tl "end of support"]

/-- `lc_ok` (source lines 1207-1209). -/
def lcOk (phase status stage lstatus : Str) : Bool :=
  !(discardLc.contains (lowerStr (pyStrip phase))) &&
    !(discardLc.contains (lowerStr (pyStrip status))) &&
    !(discardLc.contains (lowerStr (pyStrip stage))) &&
    !(discardLc.contains (lowerStr (pyStrip lstatus)))

/-- `name_prefix_ok` (source lines 1211-1215). -/
def namePrefixOk (srOrIm name : Str) : Bool :=
  let n := upperStr (pyStrip name)
  ('[' :: (upperStr srOrIm ++ [' '])).isPrefixOf n ||
    ('[' :: (upperStr srOrIm ++ ['\t'])).isPrefixOf n

/-- Split of digits at the head of a string. -/
def digitsSpan (s : Str) : Str × Str :=
  (s.takeWhile Char.isDigit, s.dropWhile Char.isDigit)

/-- Try to match the regex fragment `P\d+-P\d+` at the head of the string,
returning the matched text and the rest. -/
def prioAt : Str → Option (Str × Str)
  | 'P' :: r1 =>
    match digitsSpan r1 with
    | ([], _) => none
    | (ds1, r2) =>
      match r2 with
      | '-' :: 'P' :: r3 =>
        match digitsSpan r3 with
        | ([], _) => none
        | (ds2, r4) => some ('P' :: (ds1 ++ '-' :: 'P' :: ds2), r4)
      | _ => none
  | _ => none

/-- `re.search(r"(P\d+-P\d+)", line)`: the leftmost priority token, if any
(source lines 812-813). -/
def findPrio : Str → Option Str
  | [] => none
  | c :: rest =>
    match prioAt (c :: rest) with
    | some (m, _) => some m
    | none => findPrio rest

/-- `re.sub(r"(P\d+-P\d+)\s+.*$", pv ++ " " ++ dur, line)` (source
lines 816, 823, 831): the leftmost priority token followed by whitespace
has the whole remainder of the line replaced. -/
def subPrio (pv dur : Str) : Str → Str
  | [] => []
  | c :: rest =>
    match prioAt (c :: rest) with
    | some (_, r4) =>
      (match r4 with
       | d :: _ => if isSpaceChar d then pv ++ ' ' :: dur else c :: subPrio pv dur rest
       | [] => c :: subPrio pv dur rest)
    | none => c :: subPrio pv dur rest

/-- Fuelled worker for `re.sub(marker ++ r"\s+[^P]+", marker ++ " " ++ sched
++ " ", line)` (source lines 815, 822, 830).  The fuel makes the definition
structurally recursive (scanning resumes after a matched region). -/
def subMarkerSchedF (marker sched : Str) : Nat → Str → Str
  | 0, s => s
  | _ + 1, [] => []
  | fuel + 1, c :: rest =>
    if marker.isPrefixOf (c :: rest) then
      let afterM := (c :: rest).drop marker.length
      let sp := afterM.takeWhile isSpaceChar
      let r2 := afterM.dropWhile isSpaceChar
      if sp = [] then c :: subMarkerSchedF marker sched fuel rest
      else
        match r2 with
        | [] =>
          if sp.length ≥ 2 then marker ++ ' ' :: (sched ++ [' '])
          else c :: subMarkerSchedF marker sched fuel rest
        | d :: _ =>
          if d ≠ 'P' then
            (marker ++ ' ' :: (sched ++ [' '])) ++
              subMarkerSchedF marker sched fuel (r2.dropWhile (fun x => x ≠ 'P'))
          else if sp.length ≥ 2 then
            (marker ++ ' ' :: (sched ++ [' '])) ++ subMarkerSchedF marker sched fuel r2
          else c :: subMarkerSchedF marker sched fuel rest
    else c :: subMarkerSchedF marker sched fuel rest

/-- The marker substitution itself. -/
def subMarkerSched (marker sched line : Str) : Str :=
  subMarkerSchedF marker sched line.length line

/-- One line of `update_commitments` (source lines 806-832). -/
def updateLine (sched rsp rsl : Str) (line : Str) : Str :=
  if isSubstr (tl "RSP") line then
    let pv := (findPrio line).getD (tl "P1-P4")
    subPrio pv rsp (subMarkerSched (tl "RSP") sched line)
  else if isSubstr (tl "RSL") line then
    let pv := (findPrio line).getD (tl "P1-P4")
    subPrio pv rsl (subMarkerSched (tl "RSL") sched line)
  else if isSubstr (tl "OLA") line then
    let pv := (findPrio line).getD (tl "P1-P4")
    subPrio pv rsl (subMarkerSched (tl "RSL") sched line)
  else line

/-- `update_commitments` (source lines 795-834); the `sr_or_im` and
`country` parameters are unused by the source as well. -/
def updateCommitments (orig sched rsp rsl srOrIm country : Str) : Str :=
  joinNl ((((pySplitlines orig).map pyStrip).filter (fun l => l ≠ [])).map
    (updateLine sched rsp rsl))

/-!
Embedding of the `run_generator` orchestration (source lines 1046-2086),
restricted to the data the claims concern: the in-memory state after the
input files are loaded, the lvl1 candidate filter, the
apps × receivers × schedules × support-groups expansion with its naming,
duplicate detection and in-run deduplication, and the final no-matches
check before the output file is written.  The run is specialised to the
standard naming convention (`require_corp`/`require_recp`/
`require_corp_it`/`require_corp_dedicated`/`use_lvl2`/`use_new_parent` all
false), which is the default path of the source.  A successful result is
the list of accumulated output rows (the content of the written
spreadsheet); an error result means no output file is written.
-/

/-- One source spreadsheet row (`Child SO lvl1`), restricted to the
columns that the filtering and duplicate logic use. -/
structure SrcRow where
  name : Str
  parentOffering : Str
  commitments : Str
  phase : Str
  status : Str
  lcStage : Str
  lcStatus : Str
deriving DecidableEq

/-- One loaded input file `ALL_Service_Offering_<country>.xlsx`. -/
structure SrcFile where
  country : Str
  rows : List SrcRow
deriving DecidableEq

/-- One accumulated output row, restricted to the fields the duplicate
logic uses, plus its sheet key. -/
structure OutRow where
  sheetKey : Str
  name : Str
  recv : Str
  app : Option Str
  sched : Str
  sg : Str
  mg : Str
deriving DecidableEq

/-- The in-run deduplication key of source lines 1635-1642. -/
abbrev OutKey := Str × Str × Option Str × Str × Str × Str

/-- The deduplication key of an output row. -/
def OutRow.key (r : OutRow) : OutKey := (normWs r.name, r.recv, r.app, r.sched, r.sg, r.mg)

/-- Configuration of one generation run (the subset of `run_generator`
parameters the claims depend on). -/
structure GenConfig where
  keywordsParent : Str
  keywordsChild : Str
  keywordsExcluded : Str
  newApps : List Str
  scheduleSuffixes : List Str
  srOrIm : Str
  specialDept : Option Str
  supportGroup : Str
  sgPerCountry : List (Str × Str)
  mgPerCountry : List (Str × Str)
  schedPerCountry : List (Str × Str)
  files : List SrcFile
deriving DecidableEq

/-- Python `dict.get` over an association list. -/
def dictGet (d : List (Str × Str)) (k : Str) : Option Str :=
  (d.find? (fun kv => kv.1 == k)).map (fun kv => kv.2)

/-- Separators of the app list, regex `[,\n;]+` (source line 1220). -/
def isAppSep (c : Char) : Bool := c = ',' || c = '\n' || c = ';'

/-- Fuelled splitter on runs of app separators. -/
def splitAppSepsF : Nat → Str → List Str
  | 0, _ => []
  | _ + 1, [] => []
  | fuel + 1, c :: rest =>
    if isAppSep c then splitAppSepsF fuel rest
    else (c :: rest.takeWhile (fun d => !isAppSep d)) ::
           splitAppSepsF fuel (rest.dropWhile (fun d => !isAppSep d))

/-- App-list preprocessing (source lines 1218-1227): split each raw entry
on `[,\n;]+`, strip, drop empties; a `none` sentinel when no app remains. -/
def splitApps (raws : List Str) : List (Option Str) :=
  let all := (raws.flatMap (fun r => (splitAppSepsF r.length r).map pyStrip)).filter
    (fun a => a ≠ [])
  if all = [] then [none] else all.map some

/-- Collection of existing normalized names from every loaded file
(source lines 1240-1264). -/
def existingOfferings (files : List SrcFile) : List Str :=
  files.flatMap (fun f => f.rows.map (fun r => normWs r.name))

/-- The vectorised parent-keyword pre-filter (source lines 1385-1400):
at least one parent keyword must occur in the lower-cased (not
whitespace-normalised) parent offering. -/
def preFilterParentOk (ksParent parentVal : Str) : Bool :=
  if pyStrip ksParent ≠ [] then
    match parseKeywords ksParent with
    | (kws, _) =>
      if kws ≠ [] then kws.any (fun k => isSubstr (lowerStr k) (lowerStr parentVal))
      else true
  else true

/-- The lvl1 candidate mask (source lines 1384-1422). -/
def candidateRows (cfg : GenConfig) (f : SrcFile) : List SrcRow :=
  f.rows.filter fun r =>
    preFilterParentOk cfg.keywordsParent r.parentOffering &&
      rowKeywordsOk cfg.keywordsParent cfg.keywordsChild r.parentOffering r.name &&
      rowExcludedOk cfg.keywordsExcluded r.parentOffering r.name &&
      namePrefixOk cfg.srOrIm r.name &&
      lcOk r.phase r.status r.lcStage r.lcStatus &&
      (pyStrip r.commitments ≠ tl "-")

/-- Receivers per country (source lines 1444-1459). -/
def receiversFor (country : Str) : List Str :=
  if country == tl "PL" then [tl "HS PL", tl "DS PL"]
  else if country == tl "CY" then [tl "DS CY"]
  else if country == tl "DE" then [tl "HS DE", tl "DS DE"]
  else if country == tl "UA" then [tl "DS UA"]
  else if country == tl "MD" then [tl "DS MD"]
  else if country == tl "RO" then [tl "DS RO"]
  else if country == tl "TR" then [tl "DS TR"]
  else [tl "HS " ++ country, tl "DS " ++ country]

/-- `get_schedule_suffixes_for_country` (source lines 949-969), for
string-valued per-country settings. -/
def getScheduleSuffixes (country recv : Str) (settings : List (Str × Str))
    (defaults : List Str) : List Str :=
  let key := if country == tl "PL" && recv ≠ [] then recv else country
  match dictGet settings key with
  | some v => ((splitOnChar '\n' v).map pyStrip).filter (fun s => s ≠ [])
  | none => defaults

/-- Padding of the managed-by list (source lines 938-940). -/
def padManaged (managed support : List Str) : List Str :=
  managed ++ support.drop managed.length

/-- `get_support_groups_list_for_country` (source lines 917-947). -/
def getSupportGroupsListForCountry (country supportGroup : Str)
    (sgd mgd : List (Str × Str)) (division : Option Str) : List (Str × Str) :=
  let cs :=
    if country == tl "PL" && division.isSome then
      match division with
      | some d => (dictGet sgd (d ++ tl " PL")).getD supportGroup
      | none => supportGroup
    else (dictGet sgd country).getD supportGroup
  let cm :=
    if country == tl "PL" && division.isSome then
      match division with
      | some d => (dictGet mgd (d ++ tl " PL")).getD []
      | none => []
    else (dictGet mgd country).getD []
  if cs ≠ [] && cs.contains '\n' then
    let supportList := ((splitOnChar '\n' cs).map pyStrip).filter (fun s => s ≠ [])
    let managedList0 :=
      if cm ≠ [] && cm.contains '\n' then
        ((splitOnChar '\n' cm).map pyStrip).filter (fun s => s ≠ [])
      else if cm ≠ [] then List.replicate supportList.length (pyStrip cm)
      else supportList
    supportList.zip (padManaged managedList0 supportList)
  else
    let single := if cs ≠ [] then cs else if supportGroup ≠ [] then supportGroup else []
    let singleM := if cm ≠ [] then cm else if single ≠ [] then single else []
    if single ≠ [] then [(single, singleM)] else [([], [])]

/-- The PL division determination (source lines 1583-1599). -/
def plDivision (newName baseName parentContent : Str) : Str :=
  if isSubstr (tl "HS PL") newName || isSubstr (tl "HS PL") baseName then tl "HS"
  else if isSubstr (tl "DS PL") newName || isSubstr (tl "DS PL") baseName then tl "DS"
  else if (pySplitWs parentContent).contains (tl "HS") then tl "HS"
  else if (pySplitWs parentContent).contains (tl "DS") then tl "DS"
  else tl "HS"

/-- The PL receiver-keyed support groups (source lines 1602-1616). -/
def plSupportGroups (recv : Str) (sgd mgd : List (Str × Str)) : List (Str × Str) :=
  let cs := (dictGet sgd recv).getD []
  let cm := (dictGet mgd recv).getD []
  if cs ≠ [] then
    let sg := pyStrip cs
    let mg := pyStrip (if cm ≠ [] then cm else sg)
    [(sg, mg)]
  else [([], [])]

/-- The DE receiver filter on support groups (source lines 1624-1630). -/
def filterDeGroups (recv : Str) (l : List (Str × Str)) : List (Str × Str) :=
  let matching := l.filter (fun sm => recv.isPrefixOf (pyStrip sm.1))
  if matching ≠ [] then matching else l

/-- The parent-content token filter of the DE standard-name rewrite
(source lines 1557-1563). -/
def deRewriteParts : List Str → List Str
  | [] => []
  | p :: ps =>
    if p == tl "HS" || p == tl "DS" then deRewriteParts ps
    else if p.length == 2 && pyIsUpper p && !(p == tl "IT" || p == tl "HR") then
      p :: deRewriteParts ps
    else if (p == tl "IT" || p == tl "HR" || p == tl "Medical" ||
        p == tl "Business Services") ||
        (!(p == tl "HS" || p == tl "DS") && !(p.length == 2 && pyIsUpper p)) then
      p :: deRewriteParts ps
    else deRewriteParts ps

/-- Name building of the standard path (source lines 1541-1573): the DE
parent rewrite, otherwise a plain `build_standard_name` call. -/
def buildNameStd (srOrIm : Str) (specialDept : Option Str) (country parentFull : Str)
    (app : Option Str) (sched recv : Str) : Str :=
  if country == tl "DE" && recv ≠ [] then
    let parentContent := extractParentInfo parentFull
    let catalogName := extractCatalogName parentFull
    let recvDiv := match pySplitWs recv with | d :: _ => d | [] => []
    let newParts := srOrIm :: recvDiv :: deRewriteParts (pySplitWs parentContent)
    let newPo := tl "[Parent " ++ joinSpace newParts ++ tl "] " ++ catalogName
    buildStandardName newPo srOrIm app sched specialDept (some recv)
  else buildStandardName parentFull srOrIm app sched specialDept (some recv)

/-- Accumulated state of one run: the `seen` key set and the accumulated
output rows. -/
abbrev RunState := List OutKey × List OutRow

/-- One (row, app, receiver, schedule) combination (source lines
1474-1849): build the name, raise on a collision with an existing input
name (the Bool result marks the raised and later swallowed `ValueError`),
otherwise append one output row per support-group pair unless the in-run
key was already seen. -/
def comboStep (cfg : GenConfig) (country : Str) (existing : List Str) (row : SrcRow)
    (app : Option Str) (recv sched : Str) (st : RunState) : RunState × Bool :=
  let newName := buildNameStd cfg.srOrIm cfg.specialDept country row.parentOffering app sched recv
  let nn := normWs newName
  if existing.contains nn then (st, true)
  else
    let division :=
      if country == tl "PL" then
        some (plDivision newName row.name (extractParentInfo row.parentOffering))
      else none
    let groups0 :=
      if country == tl "PL" then plSupportGroups recv cfg.sgPerCountry cfg.mgPerCountry
      else getSupportGroupsListForCountry country cfg.supportGroup cfg.sgPerCountry
        cfg.mgPerCountry division
    let groups :=
      if country == tl "DE" && recv ≠ [] then filterDeGroups recv groups0 else groups0
    (groups.foldl (fun acc sm =>
      let key : OutKey := (nn, recv, app, sched, sm.1, sm.2)
      if acc.1.contains key then acc
      else (acc.1 ++ [key],
        acc.2 ++ [⟨country ++ tl " lvl1", newName, recv, app, sched, sm.1, sm.2⟩])) st,
     false)

/-- Sequential processing with abort: the Bool result records whether a
duplicate error aborted the remaining iterations. -/
def runSeq {α : Type} (f : α → RunState → RunState × Bool) :
    List α → RunState → RunState × Bool
  | [], st => (st, false)
  | x :: xs, st =>
    match f x st with
    | (st2, true) => (st2, true)
    | (st2, false) => runSeq f xs st2

/-- The app × receiver × schedule loops for one candidate row
(source lines 1466-1474). -/
def rowLoop (cfg : GenConfig) (country : Str) (existing : List Str)
    (apps : List (Option Str)) (row : SrcRow) (st : RunState) : RunState × Bool :=
  runSeq (fun app st1 =>
    runSeq (fun recv st2 =>
      runSeq (fun sched st3 => comboStep cfg country existing row app recv sched st3)
        (getScheduleSuffixes country recv cfg.schedPerCountry cfg.scheduleSuffixes) st2)
      (receiversFor country) st1)
    apps st

/-- Processing of one file: a raised duplicate error aborts the rest of
this file only (the `except` of source lines 1851-1855 swallows it). -/
def fileLoop (cfg : GenConfig) (existing : List Str) (apps : List (Option Str))
    (f : SrcFile) (st : RunState) : RunState × Bool :=
  runSeq (rowLoop cfg f.country existing apps) (candidateRows cfg f) st

/-- Full expansion over all files; the Bool result records whether a
duplicate `ValueError` was raised (and swallowed) at any point. -/
def expandAll (cfg : GenConfig) : RunState × Bool :=
  cfg.files.foldl (fun acc f =>
    match fileLoop cfg (existingOfferings cfg.files) (splitApps cfg.newApps) f acc.1 with
    | (st2, ab) => (st2, acc.2 || ab)) (([], []), false)

/-- The only error that escapes `run_generator` in this configuration:
the zero-rows check of source lines 1872-1885. -/
inductive GenError where
  | noMatches
deriving DecidableEq

/-- `run_generator` (source lines 1046-2086) at the claim level: expansion
followed by the no-matches check; a successful value is the content of the
written output file. -/
def runGenerator (cfg : GenConfig) : Except GenError (List OutRow) :=
  let rows := (expandAll cfg).1.2
  if rows = [] then Except.error GenError.noMatches else Except.ok rows

/-- Was a duplicate `ValueError` raised (and swallowed) during the run? -/
def dupRaised (cfg : GenConfig) : Bool := (expandAll cfg).2

/-- The run invariant behind the duplicate logic: every accumulated row's
normalized name is absent from the loaded input files, the accumulated
deduplication keys are pairwise distinct, and every accumulated row's key
is recorded in the `seen` set. -/
def StInv (existing : List Str) (st : RunState) : Prop :=
  (∀ r ∈ st.2, existing.contains (normWs r.name) = false) ∧
  (st.2.map OutRow.key).Nodup ∧
  (∀ r ∈ st.2, r.key ∈ st.1)

/-- A run over one Polish file with a single candidate row: the two PL
receivers (`HS PL`, `DS PL`) produce two output rows with the same name. -/
def cfgC1 : GenConfig :=
  ⟨tl "", tl "", tl "", [], [tl "8-17"], tl "SR", none, tl "", [], [], [],
    [⟨tl "PL", [⟨tl "[SR HS PL] Old thing", tl "[Parent HS PL] Software assistance",
      tl "x", tl "Catalog", tl "Operational", tl "Operational", tl "In Use"⟩]⟩]⟩

/-- A run over one Polish file with a candidate row and a non-candidate
blocker row whose existing name equals the name generated for the second
schedule: the first schedule's row is appended, then the duplicate
`ValueError` is raised and swallowed. -/
def cfgC9 : GenConfig :=
  ⟨tl "", tl "", tl "", [], [tl "8-17", tl "9-17"], tl "SR", none, tl "", [], [], [],
    [⟨tl "PL", [⟨tl "[SR HS PL] Old thing", tl "[Parent HS PL] Software assistance",
      tl "x", tl "Catalog", tl "Operational", tl "Operational", tl "In Use"⟩,
     ⟨tl "[SR HS PL] Software assistance Prod 9-17", tl "irrelevant",
      tl "-", tl "Catalog", tl "Operational", tl "Operational", tl "In Use"⟩]⟩]⟩

/-- A run with no input files at all: the expansion is empty. -/
def cfgC9empty : GenConfig :=
  ⟨tl "", tl "", tl "", [], [tl "8-17"], tl "SR", none, tl "", [], [], [], []⟩

/-!
Theory of `ensure_incident_naming`.
-/

theorem tok_not_both {t : Str} (h1 : isIncTok t = true) (h2 : isSolvTok t = true) :
    False := by
  simp only [isIncTok, beq_iff_eq] at h1
  simp only [isSolvTok, beq_iff_eq] at h2
  rw [h1] at h2
  exact absurd h2 (by decide)

/-- Invariant of the first pass: every `incident` token is immediately
followed by the literal token `solving`. -/
def inv1 : List Str → Bool
  | [] => true
  | p :: rest =>
    if isIncTok p then
      match rest with
      | q :: _ => (q == tl "solving") && inv1 rest
      | [] => false
    else inv1 rest

theorem pass1_cons_other {p : Str} (rest : List Str) (h1 : isIncTok p = false)
    (h2 : isSolvTok p = false) : pass1 (p :: rest) = p :: pass1 rest := by
  cases rest <;> simp [pass1, h1, h2]

theorem pass1_cons_solv {p : Str} (rest : List Str) (h1 : isIncTok p = false)
    (h2 : isSolvTok p = true) : pass1 (p :: rest) = pass1 rest := by
  cases rest <;> simp [pass1, h1, h2]

theorem pass1_inc_nil {p : Str} (h : isIncTok p = true) :
    pass1 [p] = [p, tl "solving"] := by
  simp [pass1, h]

theorem pass1_inc_solv {p q : Str} (rest : List Str) (h : isIncTok p = true)
    (hq : isSolvTok q = true) : pass1 (p :: q :: rest) = p :: tl "solving" :: pass1 rest := by
  simp [pass1, h, hq]

theorem pass1_inc_other {p q : Str} (rest : List Str) (h : isIncTok p = true)
    (hq : isSolvTok q = false) :
    pass1 (p :: q :: rest) = p :: tl "solving" :: pass1 (q :: rest) := by
  simp [pass1, h, hq]

theorem inv1_cons_not_inc {p : Str} (rest : List Str) (h : isIncTok p = false) :
    inv1 (p :: rest) = inv1 rest := by
  simp [inv1, h]

theorem inv1_cons_inc {p q : Str} (rest : List Str) (h : isIncTok p = true) :
    inv1 (p :: q :: rest) = ((q == tl "solving") && inv1 (q :: rest)) := by
  simp [inv1, h]

theorem pass1_inv1 : ∀ l : List Str, inv1 (pass1 l) = true := by
  intro l
  induction l using pass1.induct with
  | case1 => rfl
  | case2 p h =>
    rw [pass1_inc_nil h]
    rw [inv1_cons_inc [] h]
    decide
  | case3 p h1 h2 =>
    simp only [Bool.not_eq_true] at h1 h2
    rw [pass1_cons_solv [] h1 h2]
    decide
  | case4 p h1 h2 =>
    simp only [Bool.not_eq_true] at h1 h2
    rw [pass1_cons_other [] h1 h2]
    rw [show pass1 ([] : List Str) = [] from rfl]
    rw [inv1_cons_not_inc [] h1]
    rfl
  | case5 p q rest2 h hq ih =>
    rw [pass1_inc_solv rest2 h hq]
    rw [inv1_cons_inc _ h]
    have : isIncTok (tl "solving") = false := by decide
    rw [inv1_cons_not_inc _ this]
    simp [ih]
  | case6 p q rest2 h hq ih =>
    simp only [Bool.not_eq_true] at hq
    rw [pass1_inc_other rest2 h hq]
    rw [inv1_cons_inc _ h]
    have : isIncTok (tl "solving") = false := by decide
    rw [inv1_cons_not_inc _ this]
    simp [ih]
  | case7 p q rest2 h1 h2 ih =>
    simp only [Bool.not_eq_true] at h1 h2
    rw [pass1_cons_solv _ h1 h2]
    exact ih
  | case8 p q rest2 h1 h2 ih =>
    simp only [Bool.not_eq_true] at h1 h2
    rw [pass1_cons_other _ h1 h2]
    rw [inv1_cons_not_inc _ h1]
    exact ih

theorem pass2_id_aux :
    ∀ (n : Nat) (l : List Str), l.length ≤ n → inv1 l = true →
      ∀ prev, pass2 prev l = l := by
  intro n
  induction n with
  | zero =>
    intro l hl _ prev
    have : l = [] := by cases l with | nil => rfl | cons a b => simp at hl
    subst this
    rfl
  | succ m ih =>
    intro l hl hi prev
    cases l with
    | nil => rfl
    | cons p rest =>
      rw [pass2_cons]
      by_cases hp : isIncTok p
      · cases rest with
        | nil => rw [inv1] at hi; simp [hp] at hi
        | cons q rest2 =>
          rw [inv1_cons_inc rest2 hp] at hi
          have hq : q = tl "solving" := by
            have := (Bool.and_eq_true _ _).mp hi
            exact beq_iff_eq.mp this.1
          have hi2 : inv1 rest2 = true := by
            have h2 := ((Bool.and_eq_true _ _).mp hi).2
            rw [inv1_cons_not_inc rest2 (by rw [hq]; decide)] at h2
            exact h2
          have hps : isSolvTok p = false := by
            cases hs : isSolvTok p
            · rfl
            · exact absurd (tok_not_both hp hs) not_false
          rw [if_neg (by simp [hps])]
          rw [if_pos hp]
          have hscan : scanSolv (q :: rest2) = ([], some (q, rest2)) := by
            rw [scanSolv, if_pos (by rw [hq]; decide)]
          rw [hscan]
          simp only [List.nil_append]
          rw [ih rest2 (by simp at hl; omega) hi2 (some q), hq]
      · have hp2 : isIncTok p = false := by simpa using hp
        have hi2 : inv1 rest = true := by
          rw [inv1_cons_not_inc rest hp2] at hi
          exact hi
        have hrec := ih rest (by simp at hl; omega) hi2 (some p)
        by_cases hcond : prevIncTok prev && isSolvTok p
        · rw [if_pos hcond, hrec]
        · rw [if_neg hcond, if_neg (by simp [hp]), hrec]

theorem pass2_id (l : List Str) (h : inv1 l = true) (prev : Option Str) :
    pass2 prev l = l :=
  pass2_id_aux l.length l (le_refl _) h prev

/-- `ensure_incident_naming` in closed form: on a regex miss it is the
first pass followed by a re-join (the second pass is the identity on
first-pass output). -/
theorem ensure_eq (s : Str) :
    ensureIncidentNaming s =
      if hasIncSolv s then s else joinSpace (pass1 (pySplitWs s)) := by
  unfold ensureIncidentNaming
  by_cases h : hasIncSolv s
  · simp [h]
  · simp only [h, if_false, Bool.false_eq_true]
    rw [pass2_id _ (pass1_inv1 _)]

theorem pass1_idem : ∀ l : List Str, pass1 (pass1 l) = pass1 l := by
  intro l
  induction l using pass1.induct with
  | case1 => rfl
  | case2 p h =>
    rw [pass1_inc_nil h, pass1_inc_solv [] h (by decide)]
    rfl
  | case3 p h1 h2 =>
    simp only [Bool.not_eq_true] at h1 h2
    rw [pass1_cons_solv [] h1 h2]
    rfl
  | case4 p h1 h2 =>
    simp only [Bool.not_eq_true] at h1 h2
    rw [pass1_cons_other [] h1 h2]
    rw [show pass1 ([] : List Str) = [] from rfl]
    rw [pass1_cons_other [] h1 h2]
    rfl
  | case5 p q rest2 h hq ih =>
    rw [pass1_inc_solv rest2 h hq, pass1_inc_solv (pass1 rest2) h (by decide), ih]
  | case6 p q rest2 h hq ih =>
    simp only [Bool.not_eq_true] at hq
    rw [pass1_inc_other rest2 h hq, pass1_inc_solv (pass1 (q :: rest2)) h (by decide), ih]
  | case7 p q rest2 h1 h2 ih =>
    simp only [Bool.not_eq_true] at h1 h2
    rw [pass1_cons_solv _ h1 h2]
    exact ih
  | case8 p q rest2 h1 h2 ih =>
    simp only [Bool.not_eq_true] at h1 h2
    rw [pass1_cons_other _ h1 h2, pass1_cons_other _ h1 h2, ih]

theorem pass1_mem : ∀ (l : List Str) t, t ∈ pass1 l → t ∈ l ∨ t = tl "solving" := by
  intro l
  induction l using pass1.induct with
  | case1 =>
    intro t ht
    rw [show pass1 ([] : List Str) = [] from rfl] at ht
    simp at ht
  | case2 p h =>
    intro t ht
    rw [pass1_inc_nil h] at ht
    rcases List.mem_cons.mp ht with h1 | h1
    · exact Or.inl (by simp [h1])
    · exact Or.inr (by simpa using h1)
  | case3 p h1 h2 =>
    simp only [Bool.not_eq_true] at h1 h2
    intro t ht
    rw [pass1_cons_solv [] h1 h2,
      show pass1 ([] : List Str) = [] from rfl] at ht
    simp at ht
  | case4 p h1 h2 =>
    simp only [Bool.not_eq_true] at h1 h2
    intro t ht
    rw [pass1_cons_other [] h1 h2,
      show pass1 ([] : List Str) = [] from rfl] at ht
    rcases List.mem_cons.mp ht with h3 | h3
    · exact Or.inl (by simp [h3])
    · simp at h3
  | case5 p q rest2 h hq ih =>
    intro t ht
    rw [pass1_inc_solv rest2 h hq] at ht
    rcases List.mem_cons.mp ht with h1 | h1
    · exact Or.inl (by simp [h1])
    · rcases List.mem_cons.mp h1 with h2 | h2
      · exact Or.inr h2
      · rcases ih t h2 with h3 | h3
        · exact Or.inl (by simp [h3])
        · exact Or.inr h3
  | case6 p q rest2 h hq ih =>
    simp only [Bool.not_eq_true] at hq
    intro t ht
    rw [pass1_inc_other rest2 h hq] at ht
    rcases List.mem_cons.mp ht with h1 | h1
    · exact Or.inl (by simp [h1])
    · rcases List.mem_cons.mp h1 with h2 | h2
      · exact Or.inr h2
      · rcases ih t h2 with h3 | h3
        · exact Or.inl (by simp [List.mem_cons.mp h3])
        · exact Or.inr h3
  | case7 p q rest2 h1 h2 ih =>
    simp only [Bool.not_eq_true] at h1 h2
    intro t ht
    rw [pass1_cons_solv _ h1 h2] at ht
    rcases ih t ht with h3 | h3
    · exact Or.inl (by simp [List.mem_cons.mp h3])
    · exact Or.inr h3
  | case8 p q rest2 h1 h2 ih =>
    simp only [Bool.not_eq_true] at h1 h2
    intro t ht
    rw [pass1_cons_other _ h1 h2] at ht
    rcases List.mem_cons.mp ht with h3 | h3
    · exact Or.inl (by simp [h3])
    · rcases ih t h3 with h4 | h4
      · exact Or.inl (by simp [List.mem_cons.mp h4])
      · exact Or.inr h4

theorem pass1_no_inc :
    ∀ l : List Str, (∀ t ∈ l, isIncTok t = false) →
      pass1 l = l.filter (fun t => !isSolvTok t) := by
  intro l
  induction l with
  | nil => intro h; decide
  | cons p rest ih =>
    intro h
    have hp : isIncTok p = false := h p (by simp)
    have hrest := ih (fun t ht => h t (by simp [ht]))
    by_cases hs : isSolvTok p
    · rw [pass1_cons_solv rest hp hs, hrest, List.filter_cons_of_neg (by simp [hs])]
    · rw [pass1_cons_other rest hp (by simpa using hs), hrest,
        List.filter_cons_of_pos (by simpa using hs)]

theorem pySplitWs_tokens_aux :
    ∀ (n : Nat) (s : Str), s.length ≤ n →
      ∀ t ∈ pySplitWs s, t ≠ [] ∧ ∀ c ∈ t, isSpaceChar c = false := by
  intro n
  induction n with
  | zero =>
    intro s hl t ht
    have : s = [] := by cases s with | nil => rfl | cons a b => simp at hl
    subst this
    simp [pySplitWs, pySplitWsF] at ht
  | succ m ih =>
    intro s hl t ht
    cases s with
    | nil => simp [pySplitWs, pySplitWsF] at ht
    | cons c rest =>
      rw [pySplitWs_cons] at ht
      by_cases hc : isSpaceChar c
      · rw [if_pos hc] at ht
        exact ih rest (by simp at hl; omega) t ht
      · rw [if_neg hc] at ht
        rcases List.mem_cons.mp ht with h1 | h1
        · subst h1
          refine ⟨by simp, ?_⟩
          intro d hd
          rcases List.mem_cons.mp hd with h2 | h2
          · subst h2; simpa using hc
          · simpa using List.mem_takeWhile_imp h2
        · have hlen := dropWhile_length_le (fun d => !isSpaceChar d) rest
          exact ih _ (by simp at hl; omega) t h1

theorem pySplitWs_tokens (s : Str) :
    ∀ t ∈ pySplitWs s, t ≠ [] ∧ ∀ c ∈ t, isSpaceChar c = false :=
  pySplitWs_tokens_aux s.length s (le_refl _)

theorem span_append (p : Char → Bool) :
    ∀ (w : Str) (x : Char) (rest : Str), (∀ c ∈ w, p c = true) → p x = false →
      (w ++ x :: rest).takeWhile p = w ∧ (w ++ x :: rest).dropWhile p = x :: rest := by
  intro w
  induction w with
  | nil =>
    intro x rest _ hx
    simp [List.takeWhile_cons, List.dropWhile_cons, hx]
  | cons a w' ih =>
    intro x rest hw hx
    have ha : p a = true := hw a (by simp)
    have := ih x rest (fun c hc => hw c (by simp [hc])) hx
    simp [List.takeWhile_cons, List.dropWhile_cons, ha, this.1, this.2]

theorem span_all (p : Char → Bool) :
    ∀ (w : Str), (∀ c ∈ w, p c = true) →
      w.takeWhile p = w ∧ w.dropWhile p = [] := by
  intro w
  induction w with
  | nil => simp
  | cons a w' ih =>
    intro hw
    have ha : p a = true := hw a (by simp)
    have := ih (fun c hc => hw c (by simp [hc]))
    simp [List.takeWhile_cons, List.dropWhile_cons, ha, this.1, this.2]

theorem pySplitWs_word (w : Str) (hne : w ≠ [])
    (hw : ∀ c ∈ w, isSpaceChar c = false) : pySplitWs w = [w] := by
  cases w with
  | nil => exact absurd rfl hne
  | cons c w' =>
    rw [pySplitWs_cons, if_neg (by simp [hw c (by simp)])]
    have hsp := span_all (fun d => !isSpaceChar d) w'
      (fun d hd => by simp [hw d (by simp [hd])])
    rw [hsp.1, hsp.2]
    rfl

theorem pySplitWs_word_append (w : Str) (r : Str) (hne : w ≠ [])
    (hw : ∀ c ∈ w, isSpaceChar c = false) :
    pySplitWs (w ++ ' ' :: r) = w :: pySplitWs r := by
  cases w with
  | nil => exact absurd rfl hne
  | cons c w' =>
    rw [List.cons_append, pySplitWs_cons, if_neg (by simp [hw c (by simp)])]
    have hsp := span_append (fun d => !isSpaceChar d) w' ' ' r
      (fun d hd => by simp [hw d (by simp [hd])]) (by simp [isSpaceChar])
    rw [hsp.1, hsp.2]
    rw [pySplitWs_cons, if_pos (by simp [isSpaceChar])]

theorem pySplitWs_joinSpace :
    ∀ L : List Str, (∀ t ∈ L, t ≠ [] ∧ ∀ c ∈ t, isSpaceChar c = false) →
      pySplitWs (joinSpace L) = L := by
  intro L
  induction L with
  | nil => intro _; rfl
  | cons w L' ih =>
    intro h
    cases L' with
    | nil =>
      have hw := h w (by simp)
      exact pySplitWs_word w hw.1 hw.2
    | cons x L'' =>
      have hw := h w (by simp)
      rw [show joinSpace (w :: x :: L'') = w ++ ' ' :: joinSpace (x :: L'') from rfl]
      rw [pySplitWs_word_append w _ hw.1 hw.2]
      rw [ih (fun t ht => h t (by simp [ht]))]

/-- Tokens of `pass1` output are nonempty and whitespace-free whenever the
input tokens are. -/
theorem pass1_tokens (l : List Str)
    (h : ∀ t ∈ l, t ≠ [] ∧ ∀ c ∈ t, isSpaceChar c = false) :
    ∀ t ∈ pass1 l, t ≠ [] ∧ ∀ c ∈ t, isSpaceChar c = false := by
  intro t ht
  rcases pass1_mem l t ht with h1 | h1
  · exact h t h1
  · subst h1
    exact ⟨by decide, by decide⟩

/-- C4 part one, as a standalone lemma: `ensure_incident_naming` is
idempotent. -/
theorem ensure_idem (s : Str) :
    ensureIncidentNaming (ensureIncidentNaming s) = ensureIncidentNaming s := by
  rw [ensure_eq s]
  by_cases h : hasIncSolv s
  · rw [if_pos h, ensure_eq s, if_pos h]
  · rw [if_neg h]
    rw [ensure_eq (joinSpace (pass1 (pySplitWs s)))]
    by_cases h2 : hasIncSolv (joinSpace (pass1 (pySplitWs s)))
    · rw [if_pos h2]
    · rw [if_neg h2]
      rw [pySplitWs_joinSpace (pass1 (pySplitWs s)) (pass1_tokens _ (pySplitWs_tokens s))]
      rw [pass1_idem]

theorem isPrefixOf_eq : ∀ n h : Str, n.isPrefixOf h = true ↔ ∃ b, h = n ++ b := by
  intro n
  induction n with
  | nil => intro h; simp [List.isPrefixOf]
  | cons c n' ih =>
    intro h
    cases h with
    | nil => simp [List.isPrefixOf]
    | cons d h' =>
      simp only [List.isPrefixOf, Bool.and_eq_true, beq_iff_eq]
      constructor
      · rintro ⟨h1, h2⟩
        obtain ⟨b, hb⟩ := (ih h').mp h2
        exact ⟨b, by simp [h1, hb]⟩
      · rintro ⟨b, hb⟩
        rw [List.cons_append] at hb
        injection hb with hb1 hb2
        exact ⟨hb1.symm, (ih h').mpr ⟨b, hb2⟩⟩

theorem pass1_append_clean :
    ∀ A X : List Str, (∀ x ∈ A, isIncTok x = false ∧ isSolvTok x = false) →
      pass1 (A ++ X) = A ++ pass1 X := by
  intro A
  induction A with
  | nil => intro X _; rfl
  | cons a A' ih =>
    intro X h
    have ha := h a (by simp)
    rw [List.cons_append, pass1_cons_other _ ha.1 ha.2,
      ih X (fun x hx => h x (by simp [hx]))]
    simp

theorem isIncTok_false_of_solv {u : Str} (hu : isSolvTok u = true) :
    isIncTok u = false := by
  cases h : isIncTok u
  · rfl
  · exact absurd (tok_not_both h hu) not_false

/-!
Substring machinery for the no-Prod claims.
-/

theorem isSubstr_iff : ∀ n h : Str, isSubstr n h = true ↔ ∃ a b, h = a ++ n ++ b := by
  intro n h
  induction h with
  | nil =>
    simp only [isSubstr, List.isEmpty_iff]
    constructor
    · intro hn
      exact ⟨[], [], by simp [hn]⟩
    · rintro ⟨a, b, hab⟩
      have h2 := List.append_eq_nil.mp hab.symm
      exact (List.append_eq_nil.mp h2.1).2
  | cons c t ih =>
    simp only [isSubstr, Bool.or_eq_true]
    constructor
    · rintro (hp | hs)
      · obtain ⟨b, hb⟩ := (isPrefixOf_eq n (c :: t)).mp hp
        exact ⟨[], b, by simp [hb]⟩
      · obtain ⟨a, b, hab⟩ := ih.mp hs
        exact ⟨c :: a, b, by simp [hab]⟩
    · rintro ⟨a, b, hab⟩
      cases a with
      | nil =>
        left
        exact (isPrefixOf_eq n (c :: t)).mpr ⟨b, by simpa using hab⟩
      | cons a0 a' =>
        right
        apply ih.mpr
        rw [List.cons_append, List.cons_append] at hab
        injection hab with h1 h2
        exact ⟨a', b, h2⟩

theorem appendEqAppend :
    ∀ (u x v y : Str), u ++ v = x ++ y → u.length ≤ x.length →
      ∃ r, x = u ++ r ∧ v = r ++ y := by
  intro u
  induction u with
  | nil =>
    intro x v y h _
    exact ⟨x, rfl, by simpa using h⟩
  | cons a u' ih =>
    intro x v y h hl
    cases x with
    | nil => simp at hl
    | cons d x' =>
      rw [List.cons_append, List.cons_append] at h
      injection h with h1 h2
      obtain ⟨r, hr1, hr2⟩ := ih x' v y h2 (by simpa using hl)
      exact ⟨r, by simp [h1, hr1], hr2⟩

theorem isSubstr_of_prefix {n h : Str} (hp : n.isPrefixOf h = true) :
    isSubstr n h = true := by
  cases h with
  | nil =>
    obtain ⟨b, hb⟩ := (isPrefixOf_eq n []).mp hp
    have : n = [] := (List.append_eq_nil.mp hb.symm).1
    simp [isSubstr, this]
  | cons c t => simp [isSubstr, hp]

theorem isSubstr_split :
    ∀ (a : Str) (c : Char) (b n : Str), c ∉ n → isSubstr n (a ++ c :: b) = true →
      isSubstr n a = true ∨ isSubstr n b = true := by
  intro a
  induction a with
  | nil =>
    intro c b n hc hs
    simp only [List.nil_append, isSubstr, Bool.or_eq_true] at hs
    rcases hs with hp | hs
    · obtain ⟨y, hy⟩ := (isPrefixOf_eq n (c :: b)).mp hp
      cases n with
      | nil => left; simp [isSubstr]
      | cons x n' =>
        rw [List.cons_append] at hy
        injection hy with h1 _
        exact absurd (by simp [h1] : c ∈ x :: n') hc
    · exact Or.inr hs
  | cons d a' ih =>
    intro c b n hc hs
    rw [List.cons_append] at hs
    simp only [isSubstr, Bool.or_eq_true] at hs
    rcases hs with hp | hs
    · cases n with
      | nil => left; simp [isSubstr, List.isPrefixOf]
      | cons x n' =>
        obtain ⟨y, hy⟩ := (isPrefixOf_eq _ _).mp hp
        by_cases hlen : (x :: n').length ≤ (d :: a').length
        · rw [show (d :: (a' ++ c :: b)) = (d :: a') ++ (c :: b) from by simp] at hy
          obtain ⟨r, hr1, _⟩ := appendEqAppend (x :: n') (d :: a') y (c :: b) hy.symm hlen
          left
          exact isSubstr_of_prefix ((isPrefixOf_eq _ _).mpr ⟨r, hr1⟩)
        · rw [show (d :: (a' ++ c :: b)) = (d :: a') ++ (c :: b) from by simp] at hy
          have hlen2 : (d :: a').length ≤ (x :: n').length := by
            simp only [not_le] at hlen
            omega
          obtain ⟨r, hr1, hr2⟩ := appendEqAppend (d :: a') (x :: n') (c :: b) y hy hlen2
          cases r with
          | nil =>
            simp only [List.append_nil] at hr1
            exact absurd (by rw [hr1] : (x :: n').length ≤ (d :: a').length) hlen
          | cons r0 r' =>
            rw [List.cons_append] at hr2
            injection hr2 with hr3 _
            exact absurd (by rw [hr1, ← hr3]; simp : c ∈ x :: n') hc
    · rcases ih c b n hc hs with h1 | h1
      · left
        simp [isSubstr, h1]
      · exact Or.inr h1

theorem isSubstr_joinSpace_inv :
    ∀ (L : List Str) (n : Str), ' ' ∉ n → isSubstr n (joinSpace L) = true →
      n = [] ∨ ∃ t ∈ L, isSubstr n t = true := by
  intro L
  induction L with
  | nil =>
    intro n _ hs
    simp only [joinSpace, isSubstr, List.isEmpty_iff] at hs
    exact Or.inl hs
  | cons w L' ih =>
    intro n hsp hs
    cases L' with
    | nil => exact Or.inr ⟨w, by simp, hs⟩
    | cons x L'' =>
      rw [show joinSpace (w :: x :: L'') = w ++ ' ' :: joinSpace (x :: L'') from rfl] at hs
      rcases isSubstr_split w ' ' (joinSpace (x :: L'')) n hsp hs with h1 | h1
      · exact Or.inr ⟨w, by simp, h1⟩
      · rcases ih n hsp h1 with h2 | ⟨t, ht, hst⟩
        · exact Or.inl h2
        · exact Or.inr ⟨t, by simp [ht], hst⟩

theorem isSubstr_trans {a b c : Str} (h1 : isSubstr a b = true)
    (h2 : isSubstr b c = true) : isSubstr a c = true := by
  obtain ⟨x, y, hxy⟩ := (isSubstr_iff a b).mp h1
  obtain ⟨u, v, huv⟩ := (isSubstr_iff b c).mp h2
  exact (isSubstr_iff a c).mpr ⟨u ++ x, y ++ v, by simp [huv, hxy]⟩

theorem isSubstr_map {n h : Str} (f : Char → Char) (hs : isSubstr n h = true) :
    isSubstr (n.map f) (h.map f) = true := by
  obtain ⟨a, b, hab⟩ := (isSubstr_iff n h).mp hs
  exact (isSubstr_iff _ _).mpr ⟨a.map f, b.map f, by simp [hab]⟩

theorem toNat_ofNat_valid (n : Nat) (h1 : n < 0xd800) : (Char.ofNat n).toNat = n := by
  have hv : n.isValidChar := Or.inl h1
  simp only [Char.ofNat, hv, dite_true, Char.ofNatAux, Char.toNat]
  rfl

theorem toLower_toLower (c : Char) : c.toLower.toLower = c.toLower := by
  by_cases h : c.toNat ≥ 65 ∧ c.toNat ≤ 90
  · have h2 : (c.toLower).toNat = c.toNat + 32 := by
      unfold Char.toLower
      simp only [h, and_self, if_true]
      exact toNat_ofNat_valid _ (by omega)
    have h3 : ¬(c.toLower.toNat ≥ 65 ∧ c.toLower.toNat ≤ 90) := by rw [h2]; omega
    conv_lhs => unfold Char.toLower
    rw [show (if 65 ≤ c.toNat ∧ c.toNat ≤ 90 then Char.ofNat (c.toNat + 32) else c) =
      c.toLower from rfl]
    simp [h3]
  · have h2 : c.toLower = c := by unfold Char.toLower; simp [h]
    rw [h2, h2]

theorem lowerStr_idem (s : Str) : lowerStr (lowerStr s) = lowerStr s := by
  unfold lowerStr
  rw [List.map_map]
  apply List.map_congr_left
  intro c _
  exact toLower_toLower c

theorem lowerStr_append (a b : Str) : lowerStr (a ++ b) = lowerStr a ++ lowerStr b :=
  List.map_append _ _ _

theorem lowerStr_joinSpace :
    ∀ L : List Str, lowerStr (joinSpace L) = joinSpace (L.map lowerStr) := by
  intro L
  induction L with
  | nil => rfl
  | cons w L' ih =>
    cases L' with
    | nil => rfl
    | cons x L'' =>
      rw [show joinSpace (w :: x :: L'') = w ++ ' ' :: joinSpace (x :: L'') from rfl]
      rw [lowerStr_append]
      rw [show lowerStr (' ' :: joinSpace (x :: L'')) =
        ' ' :: lowerStr (joinSpace (x :: L'')) from rfl]
      rw [ih]
      rfl

theorem pySplitWs_token_between_aux :
    ∀ (n : Nat) (s : Str), s.length ≤ n → ∀ t ∈ pySplitWs s, ∃ a b, s = a ++ t ++ b := by
  intro n
  induction n with
  | zero =>
    intro s hl t ht
    have : s = [] := by cases s with | nil => rfl | cons u v => simp at hl
    subst this
    simp [pySplitWs, pySplitWsF] at ht
  | succ m ih =>
    intro s hl t ht
    cases s with
    | nil => simp [pySplitWs, pySplitWsF] at ht
    | cons c rest =>
      rw [pySplitWs_cons] at ht
      by_cases hc : isSpaceChar c
      · rw [if_pos hc] at ht
        obtain ⟨a, b, hab⟩ := ih rest (by simp at hl; omega) t ht
        exact ⟨c :: a, b, by simp [hab]⟩
      · rw [if_neg hc] at ht
        rcases List.mem_cons.mp ht with h1 | h1
        · refine ⟨[], rest.dropWhile (fun d => !isSpaceChar d), ?_⟩
          rw [h1]
          simp [List.takeWhile_append_dropWhile]
        · have hlen := dropWhile_length_le (fun d => !isSpaceChar d) rest
          obtain ⟨a, b, hab⟩ := ih _ (by simp at hl; omega) t h1
          refine ⟨c :: (rest.takeWhile (fun d => !isSpaceChar d) ++ a), b, ?_⟩
          have : rest = rest.takeWhile (fun d => !isSpaceChar d) ++
              rest.dropWhile (fun d => !isSpaceChar d) :=
            (List.takeWhile_append_dropWhile _ _).symm
          conv_lhs => rw [this, hab]
          simp

theorem pySplitWs_token_between (s : Str) :
    ∀ t ∈ pySplitWs s, ∃ a b, s = a ++ t ++ b :=
  pySplitWs_token_between_aux s.length s (le_refl _)

/-- A lowered substring of a token of the lowered `ensure_incident_naming`
output is a substring of the lowered input or of `solving`, provided it
contains no space. -/
theorem ensure_no_substr (s n : Str) (hsp : ' ' ∉ n)
    (h1 : isSubstr n (lowerStr s) = false)
    (h2 : isSubstr n (lowerStr (tl "solving")) = false) :
    isSubstr n (lowerStr (ensureIncidentNaming s)) = false := by
  by_contra hcon
  rw [Bool.not_eq_false] at hcon
  rw [ensure_eq s] at hcon
  by_cases hre : hasIncSolv s
  · rw [if_pos hre] at hcon
    rw [hcon] at h1
    simp at h1
  · rw [if_neg hre] at hcon
    rw [lowerStr_joinSpace] at hcon
    rcases isSubstr_joinSpace_inv _ n hsp hcon with hn | ⟨t', ht', hst⟩
    · subst hn
      cases hls : lowerStr s with
      | nil => rw [hls] at h1; simp [isSubstr] at h1
      | cons c r =>
        rw [hls] at h1
        simp [isSubstr, List.isPrefixOf] at h1
    · obtain ⟨t0, ht0, rfl⟩ := List.mem_map.mp ht'
      rcases pass1_mem _ t0 ht0 with hmem | hsolv
      · obtain ⟨a, b, hab⟩ := pySplitWs_token_between s t0 hmem
        have : isSubstr (lowerStr t0) (lowerStr s) = true := by
          rw [hab, lowerStr_append, lowerStr_append]
          exact (isSubstr_iff _ _).mpr ⟨lowerStr a, lowerStr b, rfl⟩
        rw [isSubstr_trans hst this] at h1
        simp at h1
      · subst hsolv
        rw [isSubstr_trans hst (by decide : isSubstr (lowerStr (tl "solving"))
          (lowerStr (tl "solving")) = true)] at h2
        simp at h2

theorem pyStrip_between (s : Str) : ∃ a b, s = a ++ pyStrip s ++ b := by
  refine ⟨s.takeWhile isSpaceChar,
    ((s.dropWhile isSpaceChar).reverse.takeWhile isSpaceChar).reverse, ?_⟩
  have ht : s.dropWhile isSpaceChar =
      ((s.dropWhile isSpaceChar).reverse.dropWhile isSpaceChar).reverse ++
        ((s.dropWhile isSpaceChar).reverse.takeWhile isSpaceChar).reverse := by
    conv_lhs => rw [← List.reverse_reverse (s.dropWhile isSpaceChar)]
    conv_lhs =>
      rw [← List.takeWhile_append_dropWhile isSpaceChar (s.dropWhile isSpaceChar).reverse]
    rw [List.reverse_append]
  conv_lhs => rw [← List.takeWhile_append_dropWhile isSpaceChar s, ht]
  rw [pyStrip]
  simp

theorem matchCI_suffix :
    ∀ (pat s r : Str), matchCI pat s = some r → ∃ pre, s = pre ++ r := by
  intro pat
  induction pat with
  | nil =>
    intro s r h
    simp only [matchCI, Option.some.injEq] at h
    exact ⟨[], by simp [h]⟩
  | cons p ps ih =>
    intro s r h
    cases s with
    | nil => simp [matchCI] at h
    | cons c cs =>
      simp only [matchCI] at h
      by_cases hc : c.toLower = p
      · rw [if_pos hc] at h
        obtain ⟨pre, hpre⟩ := ih cs r h
        exact ⟨c :: pre, by simp [hpre]⟩
      · rw [if_neg hc] at h
        exact absurd h (by simp)

theorem takeUntilRBracket_decomp :
    ∀ (s a r : Str), takeUntilRBracket s = some (a, r) → s = a ++ ']' :: r := by
  intro s
  induction s with
  | nil => intro a r h; simp [takeUntilRBracket] at h
  | cons c rest ih =>
    intro a r h
    simp only [takeUntilRBracket] at h
    by_cases hc : c = ']'
    · rw [if_pos hc] at h
      simp only [Option.some.injEq, Prod.mk.injEq] at h
      rw [← h.1, ← h.2, hc]
      rfl
    · rw [if_neg hc] at h
      by_cases hn : c = '\n'
      · rw [if_pos hn] at h
        exact absurd h (by simp)
      · rw [if_neg hn] at h
        rcases h2 : takeUntilRBracket rest with _ | ⟨a', r'⟩
        · rw [h2] at h
          exact absurd h (by simp)
        · rw [h2] at h
          simp only [Option.some.injEq, Prod.mk.injEq] at h
          rw [← h.1, ← h.2]
          rw [ih a' r' h2]
          rfl

theorem parentMatchAt_between :
    ∀ (rest a : Str), parentMatchAt rest = some a → ∃ x y, rest = x ++ a ++ y := by
  intro rest a h
  unfold parentMatchAt at h
  rcases hm : matchCI (tl "parent") rest with _ | r1
  · rw [hm] at h; exact absurd h (by simp)
  · rw [hm] at h
    cases r1 with
    | nil => exact absurd h (by simp [parentMatchAt])
    | cons d r1' =>
      dsimp only at h
      by_cases hd : isSpaceChar d
      · rw [if_pos hd] at h
        rcases h2 : takeUntilRBracket ((d :: r1').dropWhile isSpaceChar) with _ | ⟨cap, rr⟩
        · rw [h2] at h; exact absurd h (by simp)
        · rw [h2] at h
          simp only [Option.some.injEq] at h
          obtain ⟨pre, hpre⟩ := matchCI_suffix (tl "parent") rest (d :: r1') hm
          have hsplit := (List.takeWhile_append_dropWhile isSpaceChar (d :: r1')).symm
          have hcap := takeUntilRBracket_decomp _ cap rr h2
          obtain ⟨sx, sy, hstrip⟩ := pyStrip_between cap
          refine ⟨pre ++ (d :: r1').takeWhile isSpaceChar ++ sx,
            sy ++ ']' :: rr, ?_⟩
          rw [hpre]
          conv_lhs => rw [hsplit, hcap, hstrip]
          rw [← h]
          simp
      · rw [if_neg hd] at h
        exact absurd h (by simp)

theorem extractParentInfoAux_between :
    ∀ s : Str, ∃ x y, s = x ++ extractParentInfoAux s ++ y := by
  intro s
  induction s with
  | nil => exact ⟨[], [], rfl⟩
  | cons c rest ih =>
    by_cases hc : c = '['
    · rcases hm : parentMatchAt rest with _ | a
      · simp only [extractParentInfoAux, if_pos hc, hm]
        obtain ⟨x, y, hxy⟩ := ih
        exact ⟨c :: x, y, by simp [← hxy]⟩
      · simp only [extractParentInfoAux, if_pos hc, hm]
        obtain ⟨x, y, hxy⟩ := parentMatchAt_between rest a hm
        exact ⟨c :: x, y, by simp [← hxy]⟩
    · simp only [extractParentInfoAux, if_neg hc]
      obtain ⟨x, y, hxy⟩ := ih
      exact ⟨c :: x, y, by simp [← hxy]⟩

theorem extractParentInfo_between (po : Str) :
    ∃ x y, po = x ++ extractParentInfo po ++ y :=
  extractParentInfoAux_between po

theorem extractCatalogName_between :
    ∀ s : Str, ∃ x y, s = x ++ extractCatalogName s ++ y := by
  intro s
  induction s with
  | nil => exact ⟨[], [], rfl⟩
  | cons c rest ih =>
    by_cases hc : c = ']'
    · simp only [extractCatalogName, if_pos hc]
      obtain ⟨sx, sy, hstrip⟩ := pyStrip_between rest
      exact ⟨c :: sx, sy, by simp [← hstrip]⟩
    · simp only [extractCatalogName, if_neg hc]
      obtain ⟨x, y, hxy⟩ := ih
      exact ⟨c :: x, y, by simp [← hxy]⟩

theorem stdParse_fields :
    ∀ (parts : List Str) (d cc dep : Str) (oth : List Str),
      ((stdParse parts d cc dep oth).1 = d ∨ (stdParse parts d cc dep oth).1 ∈ parts) ∧
      ((stdParse parts d cc dep oth).2.1 = cc ∨ (stdParse parts d cc dep oth).2.1 ∈ parts) ∧
      ((stdParse parts d cc dep oth).2.2.1 = dep ∨
        (stdParse parts d cc dep oth).2.2.1 ∈ parts) ∧
      (∀ x ∈ (stdParse parts d cc dep oth).2.2.2, x ∈ oth ∨ x ∈ parts) := by
  intro parts
  induction parts with
  | nil =>
    intro d cc dep oth
    refine ⟨Or.inl rfl, Or.inl rfl, Or.inl rfl, ?_⟩
    intro x hx
    exact Or.inl hx
  | cons p ps ih =>
    intro d cc dep oth
    have lift : ∀ q : Str, (q = p ∨ q ∈ ps) → q ∈ p :: ps := by
      intro q hq
      rcases hq with h | h
      · simp [h]
      · simp [h]
    by_cases h1 : (p == tl "HS" || p == tl "DS") = true
    · simp only [stdParse, if_pos h1]
      obtain ⟨f1, f2, f3, f4⟩ := ih p cc dep oth
      refine ⟨?_, ?_, ?_, ?_⟩
      · rcases f1 with h | h
        · exact Or.inr (lift _ (Or.inl h))
        · exact Or.inr (lift _ (Or.inr h))
      · rcases f2 with h | h
        · exact Or.inl h
        · exact Or.inr (lift _ (Or.inr h))
      · rcases f3 with h | h
        · exact Or.inl h
        · exact Or.inr (lift _ (Or.inr h))
      · intro x hx
        rcases f4 x hx with h | h
        · exact Or.inl h
        · exact Or.inr (lift _ (Or.inr h))
    · simp only [stdParse, if_neg h1]
      by_cases h2 : (p.length == 2 && pyIsUpper p &&
          !(p == tl "HS" || p == tl "DS" || p == tl "IT" || p == tl "HR")) = true
      · simp only [if_pos h2]
        obtain ⟨f1, f2, f3, f4⟩ := ih d p dep oth
        refine ⟨?_, ?_, ?_, ?_⟩
        · rcases f1 with h | h
          · exact Or.inl h
          · exact Or.inr (lift _ (Or.inr h))
        · rcases f2 with h | h
          · exact Or.inr (lift _ (Or.inl h))
          · exact Or.inr (lift _ (Or.inr h))
        · rcases f3 with h | h
          · exact Or.inl h
          · exact Or.inr (lift _ (Or.inr h))
        · intro x hx
          rcases f4 x hx with h | h
          · exact Or.inl h
          · exact Or.inr (lift _ (Or.inr h))
      · simp only [if_neg h2]
        by_cases h3 : (p == tl "IT" || p == tl "HR" || p == tl "Medical" ||
            p == tl "Business Services") = true
        · simp only [if_pos h3]
          obtain ⟨f1, f2, f3, f4⟩ := ih d cc p oth
          refine ⟨?_, ?_, ?_, ?_⟩
          · rcases f1 with h | h
            · exact Or.inl h
            · exact Or.inr (lift _ (Or.inr h))
          · rcases f2 with h | h
            · exact Or.inl h
            · exact Or.inr (lift _ (Or.inr h))
          · rcases f3 with h | h
            · exact Or.inr (lift _ (Or.inl h))
            · exact Or.inr (lift _ (Or.inr h))
          · intro x hx
            rcases f4 x hx with h | h
            · exact Or.inl h
            · exact Or.inr (lift _ (Or.inr h))
        · simp only [if_neg h3]
          obtain ⟨f1, f2, f3, f4⟩ := ih d cc dep (oth ++ [p])
          refine ⟨?_, ?_, ?_, ?_⟩
          · rcases f1 with h | h
            · exact Or.inl h
            · exact Or.inr (lift _ (Or.inr h))
          · rcases f2 with h | h
            · exact Or.inl h
            · exact Or.inr (lift _ (Or.inr h))
          · rcases f3 with h | h
            · exact Or.inl h
            · exact Or.inr (lift _ (Or.inr h))
          · intro x hx
            rcases f4 x hx with h | h
            · rcases List.mem_append.mp h with h4 | h4
              · exact Or.inl h4
              · exact Or.inr (lift _ (Or.inl (by simpa using h4)))
            · exact Or.inr (lift _ (Or.inr h))

theorem stdPrefixParts_mem (srOrIm country division countryCode dept : Str)
    (otherParts : List Str) :
    ∀ x ∈ stdPrefixParts srOrIm country division countryCode dept otherParts,
      x = srOrIm ∨ x = tl "DS" ∨ x = tl "HS" ∨ x = tl "IT" ∨ x = division ∨
        x = countryCode ∨ x = dept ∨ x ∈ otherParts := by
  intro x hx
  unfold stdPrefixParts at hx
  split_ifs at hx <;> simp at hx <;> tauto

theorem appendApp_cases (cur a : Str) :
    appendApp cur a = a ∨ appendApp cur a = tl "UPS" ∨ appendApp cur a = lowerStr a := by
  unfold appendApp
  split_ifs <;> tauto

theorem noProdParts (L : List Str)
    (h : ∀ x ∈ L, isSubstr (tl "prod") (lowerStr x) = false) :
    isSubstr (tl "prod") (lowerStr (joinSpace L)) = false := by
  by_contra hcon
  rw [Bool.not_eq_false, lowerStr_joinSpace] at hcon
  rcases isSubstr_joinSpace_inv _ _ (by decide) hcon with hn | ⟨t', ht', hst⟩
  · exact absurd hn (by decide)
  · obtain ⟨t0, ht0, rfl⟩ := List.mem_map.mp ht'
    rw [h t0 ht0] at hst
    exact absurd hst (by simp)

theorem noProdBracket (L : List Str)
    (h : ∀ x ∈ L, isSubstr (tl "prod") (lowerStr x) = false) :
    isSubstr (tl "prod") (lowerStr ('[' :: (joinSpace L ++ tl "]"))) = false := by
  by_contra hcon
  rw [Bool.not_eq_false] at hcon
  have heq : lowerStr ('[' :: (joinSpace L ++ tl "]")) =
      '[' :: (lowerStr (joinSpace L) ++ ']' :: ([] : Str)) := by
    show Char.toLower '[' :: lowerStr (joinSpace L ++ tl "]") = _
    rw [(by decide : Char.toLower '[' = '['), lowerStr_append,
      (by decide : lowerStr (tl "]") = ']' :: ([] : Str))]
  rw [heq] at hcon
  rcases isSubstr_split [] '[' _ _ (by decide) hcon with h1 | h1
  · exact absurd h1 (by decide)
  · rcases isSubstr_split (lowerStr (joinSpace L)) ']' [] _ (by decide) h1 with h2 | h2
    · rw [noProdParts L h] at h2
      exact absurd h2 (by simp)
    · exact absurd h2 (by decide)

/-- The standard (no special department) branch of `build_standard_name`
in closed form. -/
theorem buildStandardName_std (po srOrIm : Str) (app : Option Str) (sched : Str)
    (recv : Option Str) :
    buildStandardName po srOrIm app sched none recv =
      (match stdParse (pySplitWs (extractParentInfo po)) [] [] [] [] with
       | (division, countryCode, dept, otherParts) =>
        let prefixStr := '[' :: (joinSpace (stdPrefixParts srOrIm
          (findCountryStd (pySplitWs (extractParentInfo po))) division countryCode dept
          otherParts) ++ tl "]")
        let finalParts0 := [prefixStr, extractCatalogName po]
        let finalParts1 :=
          match app with
          | some a => finalParts0 ++ [appendApp (joinSpace finalParts0) a]
          | none => finalParts0
        let finalParts2 :=
          if srOrIm = tl "IM" then finalParts1 ++ [tl "solving"] else finalParts1
        let finalParts3 :=
          if !excludeProdStd (extractCatalogName po) then finalParts2 ++ [tl "Prod"]
          else finalParts2
        ensureIncidentNaming (joinSpace (finalParts3 ++ [sched]))) := by
  rfl

/-!
Claim theorems.
-/

/-- C4 (corrected): `ensure_incident_naming` is idempotent, and when the
input does not already match `\bincident\s+solving\b` (so the untouched
early return of source line 34 does not fire), an `incident` token followed
later by a `solving` token with intervening tokens is rewritten with
`solving` placed immediately after `incident` and the intervening tokens
moved after `solving` (the remainder is itself first-pass processed). -/
theorem C4_idempotent_and_reorder :
    (∀ s : Str, ensureIncidentNaming (ensureIncidentNaming s) = ensureIncidentNaming s) ∧
    (∀ (s : Str) (A : List Str) (t : Str) (mid : List Str) (u : Str) (B : List Str),
      hasIncSolv s = false →
      pySplitWs s = A ++ t :: (mid ++ u :: B) →
      isIncTok t = true → isSolvTok u = true → mid ≠ [] →
      (∀ x ∈ A, isIncTok x = false ∧ isSolvTok x = false) →
      (∀ x ∈ mid, isIncTok x = false ∧ isSolvTok x = false) →
      pySplitWs (ensureIncidentNaming s) = A ++ t :: tl "solving" :: (mid ++ pass1 B)) := by
  constructor
  · exact ensure_idem
  · intro s A t mid u B hre hsplit ht hu hmid hA hMid
    rw [ensure_eq s, if_neg (by simp [hre])]
    rw [pySplitWs_joinSpace _ (pass1_tokens _ (pySplitWs_tokens s))]
    rw [hsplit, pass1_append_clean A _ hA]
    cases mid with
    | nil => exact absurd rfl hmid
    | cons m mid' =>
      have hm := hMid m (by simp)
      rw [show ((m :: mid') ++ u :: B) = m :: (mid' ++ u :: B) from rfl]
      rw [pass1_inc_other _ ht hm.2]
      rw [show (m :: (mid' ++ u :: B)) = (m :: mid') ++ (u :: B) from rfl]
      rw [pass1_append_clean (m :: mid') _ hMid]
      rw [pass1_cons_solv B (isIncTok_false_of_solv hu) hu]

/-- Witness for C4 at a concrete input: `"incident Outlook solving 8-17"`
is rewritten to `"incident solving Outlook 8-17"` and the function is
idempotent there. -/
theorem C4_idempotent_and_reorder_witness :
    ensureIncidentNaming (ensureIncidentNaming (tl "incident Outlook solving 8-17")) =
      ensureIncidentNaming (tl "incident Outlook solving 8-17") ∧
    pySplitWs (ensureIncidentNaming (tl "incident Outlook solving 8-17")) =
      [] ++ tl "incident" :: tl "solving" ::
        ([tl "Outlook"] ++ pass1 [tl "8-17"]) := by
  constructor
  · exact C4_idempotent_and_reorder.1 (tl "incident Outlook solving 8-17")
  · exact C4_idempotent_and_reorder.2 (tl "incident Outlook solving 8-17")
      [] (tl "incident") [tl "Outlook"] (tl "solving") [tl "8-17"]
      (by decide) (by decide) (by decide) (by decide) (by decide)
      (by decide) (by decide)

/-- C4 counterexample to the claim as stated: the input
`"incident solving incident Foo solving"` contains an `incident` token
followed later by a `solving` token with the intervening token `Foo`, yet
`ensure_incident_naming` returns it unchanged (the early-return regex
matches the first `incident solving` pair), so no suffix `C` makes the
output equal to `A ++ incident :: solving :: mid ++ C`: the required token
list is not even a prefix of the output's token list. -/
theorem C4_counterexample_early_return :
    pySplitWs (tl "incident solving incident Foo solving") =
      [tl "incident", tl "solving"] ++ tl "incident" ::
        ([tl "Foo"] ++ tl "solving" :: ([] : List Str)) ∧
    isIncTok (tl "incident") = true ∧ isSolvTok (tl "solving") = true ∧
    ([tl "Foo"] ≠ ([] : List Str)) ∧
    ensureIncidentNaming (tl "incident solving incident Foo solving") =
      tl "incident solving incident Foo solving" ∧
    (([tl "incident", tl "solving"] ++ tl "incident" :: tl "solving" ::
        [tl "Foo"]).isPrefixOf
      (pySplitWs (ensureIncidentNaming
        (tl "incident solving incident Foo solving")))) = false := by
  refine ⟨by decide, by decide, by decide, by decide, by decide, by decide⟩

/-- C10 (corrected): when the early-return regex does not match and no
token is spelled `incident`, `ensure_incident_naming` deletes every
`solving` token and collapses whitespace. -/
theorem C10_no_incident_drops_solving :
    ∀ s : Str, hasIncSolv s = false →
      ((pySplitWs s).all (fun t => !isIncTok t)) = true →
      ensureIncidentNaming s =
        joinSpace ((pySplitWs s).filter (fun t => !isSolvTok t)) := by
  intro s h1 h2
  rw [ensure_eq s, if_neg (by simp [h1])]
  rw [pass1_no_inc _ (fun t ht => by simpa using List.all_eq_true.mp h2 t ht)]

/-- Witness for C10 at a concrete input: `"Software problem solving 8-17"`
loses the word `solving`. -/
theorem C10_no_incident_drops_solving_witness :
    ensureIncidentNaming (tl "Software  problem solving 8-17") =
      tl "Software problem 8-17" := by
  have h := C10_no_incident_drops_solving (tl "Software  problem solving 8-17")
    (by decide) (by decide)
  rw [h]
  decide

/-- C10 counterexample to the claim as stated: `"x-incident  solving"`
contains no token spelled `incident`, yet the early-return regex
`\bincident\s+solving\b` matches (the word boundary sits after the
hyphen), so the string is returned unchanged: `solving` is not deleted and
the double space is not collapsed. -/
theorem C10_counterexample_regex_early_return :
    ((pySplitWs (tl "x-incident  solving")).all (fun t => !isIncTok t)) = true ∧
    ensureIncidentNaming (tl "x-incident  solving") = tl "x-incident  solving" ∧
    ensureIncidentNaming (tl "x-incident  solving") ≠
      joinSpace ((pySplitWs (tl "x-incident  solving")).filter
        (fun t => !isSolvTok t)) := by
  refine ⟨by decide, by decide, by decide⟩

/-- C8: the worked example of the standard builder.  For the input row
`Parent Offering = "[Parent HS PL IT] Software assistance"`, `sr_or_im =
"SR"`, `app = "Outlook"`, `schedule_suffix = "Mon-Fri 9-17"`, no special
department and no CORP/RecP convention, `build_standard_name` returns
exactly `"[SR HS PL IT] Software assistance Outlook Prod Mon-Fri 9-17"`. -/
theorem C8_std_worked_example :
    buildStandardName (tl "[Parent HS PL IT] Software assistance") (tl "SR")
      (some (tl "Outlook")) (tl "Mon-Fri 9-17") none none =
      tl "[SR HS PL IT] Software assistance Outlook Prod Mon-Fri 9-17" := by
  decide

theorem pySplitlines_cons_other (c : Char) (rest : Str) (h1 : c ≠ '\n') (h2 : c ≠ '\r') :
    pySplitlines (c :: rest) =
      match pySplitlines rest with
      | [] => [[c]]
      | f :: fs => (c :: f) :: fs := by
  rw [pySplitlines.eq_def]
  simp only [if_neg h1, if_neg h2]

theorem pySplitlines_append_nl (x y : Str) (hx : ∀ c ∈ x, c ≠ '\n' ∧ c ≠ '\r') :
    pySplitlines (x ++ '\n' :: y) = x :: pySplitlines y := by
  induction x with
  | nil =>
    rw [List.nil_append, pySplitlines.eq_def]
    simp
  | cons c x' ih =>
    have hc := hx c (by simp)
    rw [List.cons_append, pySplitlines_cons_other c (x' ++ '\n' :: y) hc.1 hc.2]
    rw [ih (fun d hd => hx d (by simp [hd]))]

theorem pySplitlines_no_nl (x : Str) (hne : x ≠ [])
    (hx : ∀ c ∈ x, c ≠ '\n' ∧ c ≠ '\r') : pySplitlines x = [x] := by
  induction x with
  | nil => exact absurd rfl hne
  | cons c x' ih =>
    have hc := hx c (by simp)
    rw [pySplitlines_cons_other c x' hc.1 hc.2]
    cases hx' : x' with
    | nil => simp [pySplitlines]
    | cons d x'' =>
      rw [← hx']
      rw [ih (by simp [hx']) (fun d hd => hx d (by simp [hd]))]

/-- C6: `commit_block` emits, for `SR`, exactly the three lines SLA RSP,
SLA RSL, OLA RSL, and for `IM` exactly the two lines SLA RSP, SLA RSL with
no OLA line, each of the form
`[<country>] <SLA|OLA> <SR|IM> <RSP|RSL> <schedule> P1-P4 <duration>`;
when the inputs contain no line separators, splitting the result into
lines therefore yields exactly 3 (respectively 2) lines. -/
theorem C6_commit_block_lines :
    ∀ cc sched rsp rsl : Str,
      (commitBlock cc sched rsp rsl (tl "SR") =
        ('[' :: (cc ++ tl "] SLA SR RSP " ++ sched ++ tl " P1-P4 " ++ rsp)) ++ '\n' ::
          (('[' :: (cc ++ tl "] SLA SR RSL " ++ sched ++ tl " P1-P4 " ++ rsl)) ++ '\n' ::
            ('[' :: (cc ++ tl "] OLA SR RSL " ++ sched ++ tl " P1-P4 " ++ rsl)))) ∧
      (commitBlock cc sched rsp rsl (tl "IM") =
        ('[' :: (cc ++ tl "] SLA IM RSP " ++ sched ++ tl " P1-P4 " ++ rsp)) ++ '\n' ::
          ('[' :: (cc ++ tl "] SLA IM RSL " ++ sched ++ tl " P1-P4 " ++ rsl))) ∧
      ((∀ c ∈ cc ++ sched ++ rsp ++ rsl, c ≠ '\n' ∧ c ≠ '\r') →
        pySplitlines (commitBlock cc sched rsp rsl (tl "SR")) =
          ['[' :: (cc ++ tl "] SLA SR RSP " ++ sched ++ tl " P1-P4 " ++ rsp),
           '[' :: (cc ++ tl "] SLA SR RSL " ++ sched ++ tl " P1-P4 " ++ rsl),
           '[' :: (cc ++ tl "] OLA SR RSL " ++ sched ++ tl " P1-P4 " ++ rsl)] ∧
        pySplitlines (commitBlock cc sched rsp rsl (tl "IM")) =
          ['[' :: (cc ++ tl "] SLA IM RSP " ++ sched ++ tl " P1-P4 " ++ rsp),
           '[' :: (cc ++ tl "] SLA IM RSL " ++ sched ++ tl " P1-P4 " ++ rsl)]) := by
  intro cc sched rsp rsl
  have hSR : commitBlock cc sched rsp rsl (tl "SR") =
      ('[' :: (cc ++ tl "] SLA SR RSP " ++ sched ++ tl " P1-P4 " ++ rsp)) ++ '\n' ::
        (('[' :: (cc ++ tl "] SLA SR RSL " ++ sched ++ tl " P1-P4 " ++ rsl)) ++ '\n' ::
          ('[' :: (cc ++ tl "] OLA SR RSL " ++ sched ++ tl " P1-P4 " ++ rsl))) := by
    rw [commitBlock, if_neg (by decide)]
    simp [joinNl]
  have hIM : commitBlock cc sched rsp rsl (tl "IM") =
      ('[' :: (cc ++ tl "] SLA IM RSP " ++ sched ++ tl " P1-P4 " ++ rsp)) ++ '\n' ::
        ('[' :: (cc ++ tl "] SLA IM RSL " ++ sched ++ tl " P1-P4 " ++ rsl)) := by
    rw [commitBlock, if_pos (by decide)]
    simp [joinNl]
  refine ⟨hSR, hIM, ?_⟩
  intro hsep
  have hcc : ∀ c ∈ cc, c ≠ '\n' ∧ c ≠ '\r' := fun c h => hsep c (by simp [h])
  have hsched : ∀ c ∈ sched, c ≠ '\n' ∧ c ≠ '\r' := fun c h => hsep c (by simp [h])
  have hrsp : ∀ c ∈ rsp, c ≠ '\n' ∧ c ≠ '\r' := fun c h => hsep c (by simp [h])
  have hrsl : ∀ c ∈ rsl, c ≠ '\n' ∧ c ≠ '\r' := fun c h => hsep c (by simp [h])
  have hchars : ∀ mid dur : Str, (∀ c ∈ mid, c ≠ '\n' ∧ c ≠ '\r') →
      (∀ c ∈ dur, c ≠ '\n' ∧ c ≠ '\r') →
      ∀ c ∈ '[' :: (cc ++ mid ++ sched ++ tl " P1-P4 " ++ dur), c ≠ '\n' ∧ c ≠ '\r' := by
    intro mid dur hmid hdur c hc
    simp only [List.mem_cons, List.mem_append] at hc
    rcases hc with h | ⟨⟨⟨⟨h | h⟩ | h⟩ | h⟩ | h⟩
    · subst h; exact ⟨by decide, by decide⟩
    · exact hcc c h
    · exact hmid c h
    · exact hsched c h
    · exact (by decide : ∀ c ∈ tl " P1-P4 ", c ≠ '\n' ∧ c ≠ '\r') c h
    · exact hdur c h
  constructor
  · rw [hSR]
    rw [pySplitlines_append_nl _ _ (hchars (tl "] SLA SR RSP ") rsp (by decide) hrsp)]
    rw [pySplitlines_append_nl _ _ (hchars (tl "] SLA SR RSL ") rsl (by decide) hrsl)]
    rw [pySplitlines_no_nl _ (by simp) (hchars (tl "] OLA SR RSL ") rsl (by decide) hrsl)]
  · rw [hIM]
    rw [pySplitlines_append_nl _ _ (hchars (tl "] SLA IM RSP ") rsp (by decide) hrsp)]
    rw [pySplitlines_no_nl _ (by simp) (hchars (tl "] SLA IM RSL ") rsl (by decide) hrsl)]

theorem pyStrip_eq_nil_iff (s : Str) :
    pyStrip s = [] ↔ ∀ c ∈ s, isSpaceChar c = true := by
  unfold pyStrip
  rw [List.reverse_eq_nil_iff, List.dropWhile_eq_nil_iff]
  constructor
  · intro h c hc
    have hc2 : c ∈ s.takeWhile isSpaceChar ++ s.dropWhile isSpaceChar := by
      rw [List.takeWhile_append_dropWhile]; exact hc
    rcases List.mem_append.mp hc2 with h1 | h1
    · exact List.mem_takeWhile_imp h1
    · exact h c (by simp [h1])
  · intro h c hc
    simp only [List.mem_reverse] at hc
    exact h c ((List.dropWhile_sublist _).subset hc)

theorem splitOnChar_ne_nil (sep : Char) (s : Str) : splitOnChar sep s ≠ [] := by
  cases s with
  | nil => simp [splitOnChar]
  | cons c rest =>
    by_cases h : c = sep
    · simp [splitOnChar, h]
    · simp only [splitOnChar, if_neg h]
      rcases h2 : splitOnChar sep rest with _ | ⟨f, fs⟩ <;> simp

theorem splitOnChar_mem (sep : Char) :
    ∀ (s : Str) c, c ∈ s → c ≠ sep → ∃ f ∈ splitOnChar sep s, c ∈ f := by
  intro s
  induction s with
  | nil => intro c hc; simp at hc
  | cons d rest ih =>
    intro c hc hcs
    by_cases hd : d = sep
    · simp only [splitOnChar, if_pos hd]
      rcases List.mem_cons.mp hc with h | h
      · exact absurd (h.trans hd) hcs
      · obtain ⟨f, hf, hcf⟩ := ih c h hcs
        exact ⟨f, List.mem_cons_of_mem _ hf, hcf⟩
    · simp only [splitOnChar, if_neg hd]
      rcases h2 : splitOnChar sep rest with _ | ⟨f, fs⟩
      · exact absurd h2 (splitOnChar_ne_nil sep rest)
      · rcases List.mem_cons.mp hc with h | h
        · exact ⟨d :: f, by simp, by simp [h]⟩
        · obtain ⟨f', hf', hcf'⟩ := ih c h hcs
          rw [h2] at hf'
          rcases List.mem_cons.mp hf' with h3 | h3
          · exact ⟨d :: f, by simp, by simp [h3 ▸ hcf']⟩
          · exact ⟨f', by simp [h3], hcf'⟩

theorem orFragmentsNonempty (ks : Str) (hne : pyStrip ks ≠ []) :
    ((splitOnChar '\n' ks).map pyStrip).filter (fun k => k ≠ []) ≠ [] := by
  have hex : ∃ c ∈ ks, isSpaceChar c = false := by
    by_contra h
    push_neg at h
    apply hne
    rw [pyStrip_eq_nil_iff]
    intro c hc
    have := h c hc
    revert this
    cases isSpaceChar c <;> simp
  obtain ⟨c, hc, hcs⟩ := hex
  have hcnl : c ≠ '\n' := by
    intro h
    subst h
    simp [isSpaceChar] at hcs
  obtain ⟨f, hf, hcf⟩ := splitOnChar_mem '\n' ks c hc hcnl
  intro hnil
  have hps : pyStrip f ≠ [] := by
    rw [Ne, pyStrip_eq_nil_iff]
    intro hall
    rw [hall c hcf] at hcs
    simp at hcs
  have hmem : pyStrip f ∈ ((splitOnChar '\n' ks).map pyStrip).filter (fun k => k ≠ []) := by
    rw [List.mem_filter]
    exact ⟨List.mem_map_of_mem _ hf, by simpa using hps⟩
  rw [hnil] at hmem
  simp at hmem

/-- C2: keyword filter semantics of `parse_keywords` / `row_keywords_ok`.
A keyword string containing a comma filters with AND semantics over its
stripped non-empty comma fragments; one without a comma filters with OR
semantics over its stripped non-empty newline fragments; a blank keyword
string always passes.  Matching is case-insensitive substring search
against the lower-cased, whitespace-collapsed target value. -/
theorem C2_keyword_filter_semantics :
    ∀ ks target : Str,
      ((ks.contains ',' = true ∧ pyStrip ks ≠ []) →
        (keywordColOk ks target = true ↔
          ∀ k ∈ ((splitOnChar ',' ks).map pyStrip).filter (fun k => k ≠ []),
            isSubstr (lowerStr k) (normWs (lowerStr target)) = true)) ∧
      ((ks.contains ',' = false ∧ pyStrip ks ≠ []) →
        (keywordColOk ks target = true ↔
          ∃ k ∈ ((splitOnChar '\n' ks).map pyStrip).filter (fun k => k ≠ []),
            isSubstr (lowerStr k) (normWs (lowerStr target)) = true)) ∧
      (pyStrip ks = [] → keywordColOk ks target = true) := by
  have keywordColOk_eq : ∀ (kws : List Str) (useAnd : Bool) (ks target : Str),
      parseKeywords ks = (kws, useAnd) →
      keywordColOk ks target =
        if kws = [] then true
        else if useAnd then
          kws.all (fun k => isSubstr (lowerStr k) (normWs (lowerStr target)))
        else kws.any (fun k => isSubstr (lowerStr k) (normWs (lowerStr target))) := by
    intro kws useAnd ks target h
    unfold keywordColOk
    rw [h]
  intro ks target
  refine ⟨?_, ?_, ?_⟩
  · rintro ⟨hc, hs⟩
    have hpk : parseKeywords ks =
        (((splitOnChar ',' ks).map pyStrip).filter (fun k => k ≠ []), true) := by
      rw [parseKeywords, if_neg hs, if_pos (by simpa using hc)]
    rw [keywordColOk_eq _ _ _ _ hpk]
    by_cases hk : ((splitOnChar ',' ks).map pyStrip).filter (fun k => k ≠ []) = []
    · rw [if_pos hk, hk]
      simp
    · rw [if_neg hk, if_pos rfl]
      exact List.all_eq_true
  · rintro ⟨hc, hs⟩
    have hpk : parseKeywords ks =
        (((splitOnChar '\n' ks).map pyStrip).filter (fun k => k ≠ []), false) := by
      rw [parseKeywords, if_neg hs, if_neg (by simpa using hc)]
    rw [keywordColOk_eq _ _ _ _ hpk, if_neg (orFragmentsNonempty ks hs),
      if_neg (by simp)]
    exact List.any_eq_true
  · intro hs
    have hpk : parseKeywords ks = ([], false) := by rw [parseKeywords, if_pos hs]
    rw [keywordColOk_eq _ _ _ _ hpk, if_pos rfl]

/-- Witness for C2 at concrete inputs: AND filtering with a comma, OR
filtering with a newline, and the blank string passing everything. -/
theorem C2_keyword_filter_semantics_witness :
    keywordColOk (tl "soft, assist") (tl "Parent  Software assistance") = true ∧
    keywordColOk (tl "foo\nassist") (tl "Software assistance") = true ∧
    keywordColOk (tl "  ") (tl "anything") = true := by
  refine ⟨?_, ?_, ?_⟩
  · exact ((C2_keyword_filter_semantics (tl "soft, assist")
      (tl "Parent  Software assistance")).1 ⟨by decide, by decide⟩).2 (by decide)
  · exact ((C2_keyword_filter_semantics (tl "foo\nassist")
      (tl "Software assistance")).2.1 ⟨by decide, by decide⟩).2 (by decide)
  · exact (C2_keyword_filter_semantics (tl "  ") (tl "anything")).2.2 (by decide)

/-- Witness for C6 at concrete inputs. -/
theorem C6_commit_block_lines_witness :
    pySplitlines (commitBlock (tl "PL") (tl "Mon-Fri 9-17") (tl "4h") (tl "8h")
      (tl "SR")) =
      [tl "[PL] SLA SR RSP Mon-Fri 9-17 P1-P4 4h",
       tl "[PL] SLA SR RSL Mon-Fri 9-17 P1-P4 8h",
       tl "[PL] OLA SR RSL Mon-Fri 9-17 P1-P4 8h"] := by
  have h := ((C6_commit_block_lines (tl "PL") (tl "Mon-Fri 9-17") (tl "4h")
    (tl "8h")).2.2 (by decide)).1
  rw [h]
  decide

theorem appendApp_no_prod (cur a : Str)
    (ha : isSubstr (tl "prod") (lowerStr a) = false) :
    isSubstr (tl "prod") (lowerStr (appendApp cur a)) = false := by
  rcases appendApp_cases cur a with he | he | he
  · rw [he]; exact ha
  · rw [he]; decide
  · rw [he, lowerStr_idem]; exact ha

theorem stdTail_no_prod (F1 : List Str) (sched : Str) (c : Prop) [Decidable c]
    (hF1 : ∀ t ∈ F1, isSubstr (tl "prod") (lowerStr t) = false)
    (hsched : isSubstr (tl "prod") (lowerStr sched) = false) :
    isSubstr (tl "prod")
      (lowerStr (ensureIncidentNaming
        (joinSpace ((if c then F1 ++ [tl "solving"] else F1) ++ [sched])))) = false := by
  refine ensure_no_substr _ _ (by decide) ?_ (by decide)
  apply noProdParts
  intro t0 ht0
  rcases List.mem_append.mp ht0 with hF2 | hlast
  · by_cases hc : c
    · rw [if_pos hc] at hF2
      rcases List.mem_append.mp hF2 with hm | hsolv
      · exact hF1 t0 hm
      · rw [List.mem_singleton] at hsolv
        subst hsolv
        decide
    · rw [if_neg hc] at hF2
      exact hF1 t0 hF2
  · rw [List.mem_singleton] at hlast
    subst hlast
    exact hsched

/-- C3 (corrected): the Prod-exclusion keyword rule holds for the standard
branch of `build_standard_name`: when the catalog name contains one of the
no-prod keywords (hardware, mailbox, network, mobile, security,
case-insensitively) and none of the inputs themselves contain `prod`
(case-insensitively), the returned name never contains `prod`
case-insensitively, hence never the token `Prod`.  The CORP, RecP and
CORP-Dedicated builders violate the original claim (see the
counterexample): they append `Prod` unconditionally. -/
theorem C3_standard_prod_exclusion :
    ∀ (po srOrIm : Str) (app : Option Str) (sched : Str) (recv : Option Str),
      (srOrIm = tl "SR" ∨ srOrIm = tl "IM") →
      excludeProdStd (extractCatalogName po) = true →
      isSubstr (tl "prod") (lowerStr po) = false →
      (∀ a, app = some a → isSubstr (tl "prod") (lowerStr a) = false) →
      isSubstr (tl "prod") (lowerStr sched) = false →
      isSubstr (tl "prod")
        (lowerStr (buildStandardName po srOrIm app sched none recv)) = false := by
  intro po srOrIm app sched recv hsr hex hpo happ hsched
  have hsub_po : ∀ t : Str, (∃ x y, po = x ++ t ++ y) →
      isSubstr (tl "prod") (lowerStr t) = false := by
    rintro t ⟨x, y, hxy⟩
    by_contra hcon
    rw [Bool.not_eq_false] at hcon
    have hT : isSubstr (tl "prod") (lowerStr po) = true := by
      rw [hxy, lowerStr_append, lowerStr_append]
      exact isSubstr_trans hcon ((isSubstr_iff _ _).mpr ⟨lowerStr x, lowerStr y, rfl⟩)
    rw [hT] at hpo
    exact absurd hpo (by simp)
  have hparts : ∀ t ∈ pySplitWs (extractParentInfo po),
      isSubstr (tl "prod") (lowerStr t) = false := by
    intro t ht
    obtain ⟨a, b, hab⟩ := pySplitWs_token_between _ t ht
    obtain ⟨x, y, hxy⟩ := extractParentInfo_between po
    refine hsub_po t ⟨x ++ a, b ++ y, ?_⟩
    calc po = x ++ extractParentInfo po ++ y := hxy
      _ = x ++ (a ++ t ++ b) ++ y := by rw [hab]
      _ = (x ++ a) ++ t ++ (b ++ y) := by simp
  have hcatN : isSubstr (tl "prod") (lowerStr (extractCatalogName po)) = false :=
    hsub_po _ (extractCatalogName_between po)
  rcases hparse : stdParse (pySplitWs (extractParentInfo po)) [] [] [] [] with
    ⟨division, countryCode, dept, otherParts⟩
  obtain ⟨hf1, hf2, hf3, hf4⟩ :=
    stdParse_fields (pySplitWs (extractParentInfo po)) [] [] [] []
  rw [hparse] at hf1 hf2 hf3 hf4
  have hdiv : isSubstr (tl "prod") (lowerStr division) = false := by
    have h1 : division = [] ∨ division ∈ pySplitWs (extractParentInfo po) := hf1
    rcases h1 with rfl | h
    · decide
    · exact hparts _ h
  have hcc : isSubstr (tl "prod") (lowerStr countryCode) = false := by
    have h1 : countryCode = [] ∨ countryCode ∈ pySplitWs (extractParentInfo po) := hf2
    rcases h1 with rfl | h
    · decide
    · exact hparts _ h
  have hdep : isSubstr (tl "prod") (lowerStr dept) = false := by
    have h1 : dept = [] ∨ dept ∈ pySplitWs (extractParentInfo po) := hf3
    rcases h1 with rfl | h
    · decide
    · exact hparts _ h
  have hoth : ∀ x ∈ otherParts, isSubstr (tl "prod") (lowerStr x) = false := by
    intro x hx
    have h1 : x ∈ ([] : List Str) ∨ x ∈ pySplitWs (extractParentInfo po) := hf4 x hx
    rcases h1 with h | h
    · simp at h
    · exact hparts x h
  have hpref : ∀ x ∈ stdPrefixParts srOrIm (findCountryStd (pySplitWs
      (extractParentInfo po))) division countryCode dept otherParts,
      isSubstr (tl "prod") (lowerStr x) = false := by
    intro x hx
    rcases stdPrefixParts_mem _ _ _ _ _ _ x hx with h | h | h | h | h | h | h | h
    · subst h
      rcases hsr with h2 | h2 <;> (subst h2; decide)
    · subst h; decide
    · subst h; decide
    · subst h; decide
    · subst h; exact hdiv
    · subst h; exact hcc
    · subst h; exact hdep
    · exact hoth x h
  have hprefixStr := noProdBracket _ hpref
  rw [buildStandardName_std po srOrIm app sched recv, hparse]
  dsimp only
  rw [hex, Bool.not_true]
  rw [if_neg (by simp : ¬ (false = true))]
  rcases app with _ | a
  · dsimp only
    refine stdTail_no_prod _ _ _ ?_ hsched
    intro t0 ht0
    rcases List.mem_cons.mp ht0 with rfl | ht1
    · exact hprefixStr
    · rcases List.mem_cons.mp ht1 with rfl | ht2
      · exact hcatN
      · simp at ht2
  · dsimp only
    have ha : isSubstr (tl "prod") (lowerStr a) = false := happ a rfl
    refine stdTail_no_prod _ _ _ ?_ hsched
    intro t0 ht0
    rcases List.mem_append.mp ht0 with h0 | hApp
    · rcases List.mem_cons.mp h0 with rfl | ht1
      · exact hprefixStr
      · rcases List.mem_cons.mp ht1 with rfl | ht2
        · exact hcatN
        · simp at ht2
    · rw [List.mem_singleton] at hApp
      subst hApp
      exact appendApp_no_prod _ a ha

/-- Witness for C3 at concrete inputs: a catalog name containing
`Hardware` suppresses the `Prod` token in the standard branch. -/
theorem C3_standard_prod_exclusion_witness :
    isSubstr (tl "prod")
      (lowerStr (buildStandardName (tl "[Parent HS PL] Hardware support") (tl "SR")
        (some (tl "Tool")) (tl "8-17") none none)) = false :=
  C3_standard_prod_exclusion (tl "[Parent HS PL] Hardware support") (tl "SR")
    (some (tl "Tool")) (tl "8-17") none (Or.inl rfl) (by decide) (by decide)
    (by intro a ha; injection ha with h; rw [← h]; decide) (by decide)

/-- C5 (confirmed): in every name-builder variant, when the country is one
of the DS-override countries (UA, MD, RO, TR) the division token — the
element at index 1 of the bracketed prefix token list, right after the
SR/IM token — is `DS`, for every division parsed from the parent offering
and every delivering tag.  For the CORP, CORP-IT and CORP-Dedicated
variants the division argument is the one computed by
`get_division_and_country`, as in the source. -/
theorem C5_ds_override :
    (∀ srOrIm country division countryCode dept otherParts,
       dsOverride.contains country = true →
       (stdPrefixParts srOrIm country division countryCode dept otherParts)[1]? =
         some (tl "DS")) ∧
    (∀ srOrIm country division receiver,
       dsOverride.contains country = true →
       (itPrefixParts srOrIm country division receiver)[1]? = some (tl "DS")) ∧
    (∀ srImPos srOrIm country division dept,
       dsOverride.contains country = true →
       (lvl2PrefixParts srImPos srOrIm country division dept)[1]? = some (tl "DS")) ∧
    (∀ srOrIm pc country dtag receiver topic,
       dsOverride.contains country = true →
       (corpPrefixParts srOrIm country ((getDivisionAndCountry pc country dtag).1)
         receiver dtag topic)[1]? = some (tl "DS")) ∧
    (∀ srOrIm country parentDivision division dtag,
       dsOverride.contains country = true →
       (recpPrefixParts srOrIm country parentDivision division dtag)[1]? =
         some (tl "DS")) ∧
    (∀ srOrIm pc country dtag receiver,
       dsOverride.contains country = true →
       (corpItPrefixParts srOrIm country ((getDivisionAndCountry pc country dtag).1)
         receiver dtag)[1]? = some (tl "DS")) ∧
    (∀ srOrIm pc country dtag receiver,
       dsOverride.contains country = true →
       (corpDedicatedPrefixParts srOrIm country ((getDivisionAndCountry pc country dtag).1)
         receiver dtag)[1]? = some (tl "DS")) := by
  refine ⟨?_, ?_, ?_, ?_, ?_, ?_, ?_⟩
  · intro srOrIm country division countryCode dept otherParts h
    simp only [stdPrefixParts]
    rw [if_pos h]
    split_ifs <;> simp
  · intro srOrIm country division receiver h
    have hne : country ≠ tl "DE" := fun hDE => absurd (hDE ▸ h) (by decide)
    rcases receiver with _ | r
    · simp only [itPrefixParts, itDivisionParts]
      rw [if_pos h]
      simp
    · simp only [itPrefixParts, itDivisionParts]
      rw [if_neg hne, if_pos h]
      simp
  · intro srImPos srOrIm country division dept h
    simp only [lvl2PrefixParts]
    rw [if_pos h]
    simp
  · intro srOrIm pc country dtag receiver topic h
    simp only [corpPrefixParts]
    by_cases hdt : dtag = []
    · subst hdt
      rw [if_neg (by simp), show getDivisionAndCountry pc country [] =
        (tl "DS", country) from by rw [getDivisionAndCountry, if_pos h]]
      simp
    · rw [if_pos hdt, if_pos h]
      simp
  · intro srOrIm country parentDivision division dtag h
    simp only [recpPrefixParts]
    rw [if_pos h]
    simp
  · intro srOrIm pc country dtag receiver h
    simp only [corpItPrefixParts]
    by_cases hdt : dtag = []
    · subst hdt
      rw [if_neg (by simp), show getDivisionAndCountry pc country [] =
        (tl "DS", country) from by rw [getDivisionAndCountry, if_pos h]]
      simp
    · rw [if_pos hdt, if_pos h]
      simp
  · intro srOrIm pc country dtag receiver h
    simp only [corpDedicatedPrefixParts]
    by_cases hdt : dtag = []
    · subst hdt
      rw [if_neg (by simp), show getDivisionAndCountry pc country [] =
        (tl "DS", country) from by rw [getDivisionAndCountry, if_pos h]]
      simp
    · rw [if_pos hdt, if_pos h]
      simp

/-- Witness for C5 at concrete inputs, one per builder variant. -/
theorem C5_ds_override_witness :
    (stdPrefixParts (tl "SR") (tl "UA") (tl "HS") (tl "UA") [] [])[1]? =
      some (tl "DS") ∧
    (itPrefixParts (tl "IM") (tl "RO") (tl "HS") none)[1]? = some (tl "DS") ∧
    (lvl2PrefixParts (tl "SR") (tl "SR") (tl "MD") (tl "HS") [])[1]? =
      some (tl "DS") ∧
    (corpPrefixParts (tl "SR") (tl "TR")
      ((getDivisionAndCountry (tl "HS TR Topic") (tl "TR") (tl "HS TR")).1)
      (tl "HS PL") (tl "HS TR") (tl "Topic"))[1]? = some (tl "DS") ∧
    (recpPrefixParts (tl "SR") (tl "UA") (tl "HS") (tl "HS") [])[1]? =
      some (tl "DS") ∧
    (corpItPrefixParts (tl "IM") (tl "MD")
      ((getDivisionAndCountry (tl "HS MD") (tl "MD") []).1) (tl "HS PL") [])[1]? =
      some (tl "DS") ∧
    (corpDedicatedPrefixParts (tl "SR") (tl "RO")
      ((getDivisionAndCountry (tl "HS RO") (tl "RO") []).1) (tl "HS PL") [])[1]? =
      some (tl "DS") :=
  ⟨C5_ds_override.1 (tl "SR") (tl "UA") (tl "HS") (tl "UA") [] [] (by decide),
   C5_ds_override.2.1 (tl "IM") (tl "RO") (tl "HS") none (by decide),
   C5_ds_override.2.2.1 (tl "SR") (tl "SR") (tl "MD") (tl "HS") [] (by decide),
   C5_ds_override.2.2.2.1 (tl "SR") (tl "HS TR Topic") (tl "TR") (tl "HS TR")
     (tl "HS PL") (tl "Topic") (by decide),
   C5_ds_override.2.2.2.2.1 (tl "SR") (tl "UA") (tl "HS") (tl "HS") [] (by decide),
   C5_ds_override.2.2.2.2.2.1 (tl "IM") (tl "HS MD") (tl "MD") [] (tl "HS PL")
     (by decide),
   C5_ds_override.2.2.2.2.2.2 (tl "SR") (tl "HS RO") (tl "RO") [] (tl "HS PL")
     (by decide)⟩

/-- C7 (corrected): `update_commitments` rewrites the schedule and the
duration of marker lines and keeps an existing priority token (here
`P1-P3` on the RSP line and `P1-P4` on the OLA line), for every pair of
replacement durations.  The default-priority half of the original claim is
false: a marker line with no priority token present never receives the
`P1-P4` default (see the counterexample) because the duration substitution
regex `(P\d+-P\d+)\s+.*$` cannot match such a line. -/
theorem C7_update_commitments :
    ∀ rsp rsl : Str,
      updateLine (tl "Mon-Fri 8-18") rsp rsl
        (tl "[PL] SLA SR RSP Mon-Fri 9-17 P1-P3 4h") =
        tl "[PL] SLA SR RSP Mon-Fri 8-18 P1-P3 " ++ rsp ∧
      updateLine (tl "Mon-Fri 8-18") rsp rsl
        (tl "[PL] OLA SR RSL Mon-Fri 9-17 P1-P4 8h") =
        tl "[PL] OLA SR RSL Mon-Fri 8-18 P1-P4 " ++ rsl ∧
      updateCommitments
        (tl "[PL] SLA SR RSP Mon-Fri 9-17 P1-P3 4h\n[PL] OLA SR RSL Mon-Fri 9-17 P1-P4 8h")
        (tl "Mon-Fri 8-18") rsp rsl (tl "SR") (tl "PL") =
        joinNl [tl "[PL] SLA SR RSP Mon-Fri 8-18 P1-P3 " ++ rsp,
          tl "[PL] OLA SR RSL Mon-Fri 8-18 P1-P4 " ++ rsl] := by
  intro rsp rsl
  have h1 : updateLine (tl "Mon-Fri 8-18") rsp rsl
      (tl "[PL] SLA SR RSP Mon-Fri 9-17 P1-P3 4h") =
      tl "[PL] SLA SR RSP Mon-Fri 8-18 P1-P3 " ++ rsp := by rfl
  have h2 : updateLine (tl "Mon-Fri 8-18") rsp rsl
      (tl "[PL] OLA SR RSL Mon-Fri 9-17 P1-P4 8h") =
      tl "[PL] OLA SR RSL Mon-Fri 8-18 P1-P4 " ++ rsl := by rfl
  refine ⟨h1, h2, ?_⟩
  have h3 : updateCommitments
      (tl "[PL] SLA SR RSP Mon-Fri 9-17 P1-P3 4h\n[PL] OLA SR RSL Mon-Fri 9-17 P1-P4 8h")
      (tl "Mon-Fri 8-18") rsp rsl (tl "SR") (tl "PL") =
      joinNl [updateLine (tl "Mon-Fri 8-18") rsp rsl
          (tl "[PL] SLA SR RSP Mon-Fri 9-17 P1-P3 4h"),
        updateLine (tl "Mon-Fri 8-18") rsp rsl
          (tl "[PL] OLA SR RSL Mon-Fri 9-17 P1-P4 8h")] := by rfl
  rw [h3, h1, h2]

/-- Counterexample to C7 as stated: a marker line with no priority token
does not receive the default `P1-P4`; the schedule is rewritten but the
old duration is consumed by the marker substitution, the new duration is
dropped, and no priority token appears in the output. -/
theorem C7_counterexample_no_default :
    updateCommitments (tl "[PL] SLA SR RSP Mon-Fri 9-17 4h") (tl "Mon-Fri 8-18")
      (tl "5h") (tl "6h") (tl "SR") (tl "PL") =
      tl "[PL] SLA SR RSP Mon-Fri 8-18 " ∧
    isSubstr (tl "P1-P4") (tl "[PL] SLA SR RSP Mon-Fri 8-18 ") = false ∧
    isSubstr (tl "5h") (tl "[PL] SLA SR RSP Mon-Fri 8-18 ") = false := by
  exact ⟨by decide, by decide, by decide⟩

/-- Counterexample to C3 as stated: `build_corp_name` on a parent offering
whose catalog text contains `Hardware` still appends the `Prod` token
(source lines 760-776 append `Prod` unconditionally), so the assembled
name contains both `hardware` and `prod` case-insensitively. -/
theorem C3_counterexample_corp_prod :
    isSubstr (tl "hardware")
      (lowerStr (buildCorpName (tl "[Parent HS PL] Hardware support") (tl "SR") none
        (tl "8-17") (tl "HS PL") (tl ""))) = true ∧
    isSubstr (tl "prod")
      (lowerStr (buildCorpName (tl "[Parent HS PL] Hardware support") (tl "SR") none
        (tl "8-17") (tl "HS PL") (tl ""))) = true := by
  exact ⟨by decide, by decide⟩

theorem foldl_groups_inv (existing : List Str) (skey newName recv : Str)
    (app : Option Str) (sched : Str)
    (hnew : existing.contains (normWs newName) = false) :
    ∀ (groups : List (Str × Str)) (st : RunState), StInv existing st →
      StInv existing (groups.foldl (fun acc sm =>
        if acc.1.contains (normWs newName, recv, app, sched, sm.1, sm.2) then acc
        else (acc.1 ++ [(normWs newName, recv, app, sched, sm.1, sm.2)],
          acc.2 ++ [⟨skey, newName, recv, app, sched, sm.1, sm.2⟩])) st) := by
  intro groups
  induction groups with
  | nil => intro st h; exact h
  | cons g gs ih =>
    intro st h
    rw [List.foldl_cons]
    apply ih
    by_cases hk : st.1.contains (normWs newName, recv, app, sched, g.1, g.2) = true
    · rw [if_pos hk]
      exact h
    · rw [if_neg hk]
      obtain ⟨h1, h2, h3⟩ := h
      refine ⟨?_, ?_, ?_⟩
      · intro r hr
        rcases List.mem_append.mp hr with hm | hm
        · exact h1 r hm
        · rw [List.mem_singleton] at hm
          subst hm
          exact hnew
      · rw [List.map_append, List.nodup_append]
        refine ⟨h2, List.nodup_singleton _, ?_⟩
        intro x hx hx2
        simp only [List.map_cons, List.map_nil, List.mem_singleton] at hx2
        subst hx2
        obtain ⟨r, hrmem, hrkey⟩ := List.mem_map.mp hx
        have hmem := h3 r hrmem
        rw [hrkey] at hmem
        exact absurd hmem (by simpa [OutRow.key] using hk)
      · intro r hr
        rcases List.mem_append.mp hr with hm | hm
        · exact List.mem_append.mpr (Or.inl (h3 r hm))
        · rw [List.mem_singleton] at hm
          subst hm
          refine List.mem_append.mpr (Or.inr ?_)
          rw [List.mem_singleton]
          rfl

theorem comboStep_inv (cfg : GenConfig) (country : Str) (existing : List Str)
    (row : SrcRow) (app : Option Str) (recv sched : Str) (st : RunState)
    (h : StInv existing st) :
    StInv existing (comboStep cfg country existing row app recv sched st).1 := by
  simp only [comboStep]
  by_cases hex : existing.contains (normWs (buildNameStd cfg.srOrIm cfg.specialDept
      country row.parentOffering app sched recv)) = true
  · rw [if_pos hex]
    exact h
  · rw [if_neg hex]
    exact foldl_groups_inv existing (country ++ tl " lvl1")
      (buildNameStd cfg.srOrIm cfg.specialDept country row.parentOffering app sched recv)
      recv app sched (by simpa using hex) _ st h

theorem runSeq_inv {α : Type} (P : RunState → Prop)
    (f : α → RunState → RunState × Bool)
    (hf : ∀ x st, P st → P (f x st).1) :
    ∀ (l : List α) (st : RunState), P st → P (runSeq f l st).1 := by
  intro l
  induction l with
  | nil =>
    intro st h
    exact h
  | cons x xs ih =>
    intro st h
    have hstep := hf x st h
    rcases hfx : f x st with ⟨st2, b⟩
    rw [hfx] at hstep
    rw [show runSeq f (x :: xs) st = (match f x st with
      | (st2, true) => (st2, true) | (st2, false) => runSeq f xs st2) from rfl, hfx]
    cases b
    · exact ih st2 hstep
    · exact hstep

theorem rowLoop_inv (cfg : GenConfig) (country : Str) (existing : List Str)
    (apps : List (Option Str)) (row : SrcRow) (st : RunState)
    (h : StInv existing st) :
    StInv existing (rowLoop cfg country existing apps row st).1 := by
  unfold rowLoop
  refine runSeq_inv _ _ ?_ apps st h
  intro app st1 h1
  refine runSeq_inv _ _ ?_ (receiversFor country) st1 h1
  intro recv st2 h2
  refine runSeq_inv _ _ ?_
    (getScheduleSuffixes country recv cfg.schedPerCountry cfg.scheduleSuffixes) st2 h2
  intro sched st3 h3
  exact comboStep_inv cfg country existing row app recv sched st3 h3

theorem fileLoop_inv (cfg : GenConfig) (existing : List Str) (apps : List (Option Str))
    (f : SrcFile) (st : RunState) (h : StInv existing st) :
    StInv existing (fileLoop cfg existing apps f st).1 := by
  unfold fileLoop
  refine runSeq_inv _ _ ?_ (candidateRows cfg f) st h
  intro row st1 h1
  exact rowLoop_inv cfg f.country existing apps row st1 h1

theorem foldl_files_inv (cfg : GenConfig) :
    ∀ (l : List SrcFile) (acc : RunState × Bool),
      StInv (existingOfferings cfg.files) acc.1 →
      StInv (existingOfferings cfg.files)
        (l.foldl (fun acc f =>
          match fileLoop cfg (existingOfferings cfg.files) (splitApps cfg.newApps)
              f acc.1 with
          | (st2, ab) => (st2, acc.2 || ab)) acc).1 := by
  intro l
  induction l with
  | nil => intro acc h; exact h
  | cons f fs ih =>
    intro acc h
    rw [List.foldl_cons]
    apply ih
    have hstep := fileLoop_inv cfg (existingOfferings cfg.files)
      (splitApps cfg.newApps) f acc.1 h
    rcases hfl : fileLoop cfg (existingOfferings cfg.files) (splitApps cfg.newApps)
      f acc.1 with ⟨st2, ab⟩
    rw [hfl] at hstep
    exact hstep

theorem expandAll_inv (cfg : GenConfig) :
    StInv (existingOfferings cfg.files) (expandAll cfg).1 := by
  unfold expandAll
  exact foldl_files_inv cfg cfg.files (([], []), false) ⟨by simp, by simp, by simp⟩

/-- C1 (corrected): for every successful run, no output row's
whitespace-normalized name collides with a name already present in any
loaded input file, and the in-run deduplication keys — the 6-tuples of
normalized name, receiver, app, schedule, support group and managed-by
group — of the output rows are pairwise distinct.  The original claim's
name-uniqueness across rows is false: two rows that differ only in the
receiver carry the same normalized name and are both appended without any
error (see the counterexample). -/
theorem C1_run_uniqueness :
    ∀ (cfg : GenConfig) (rows : List OutRow), runGenerator cfg = Except.ok rows →
      (∀ r ∈ rows, (existingOfferings cfg.files).contains (normWs r.name) = false) ∧
      (rows.map OutRow.key).Nodup := by
  intro cfg rows hok
  have hinv := expandAll_inv cfg
  have hrows : (expandAll cfg).1.2 = rows := by
    simp only [runGenerator] at hok
    by_cases hz : (expandAll cfg).1.2 = []
    · rw [if_pos hz] at hok
      simp at hok
    · rw [if_neg hz] at hok
      injection hok with h
  rw [← hrows]
  exact ⟨hinv.1, hinv.2.1⟩

/-- Witness for C1: the invariant instantiated on the concrete Polish
run. -/
theorem C1_run_uniqueness_witness :
    (∀ r ∈ (expandAll cfgC1).1.2,
      (existingOfferings cfgC1.files).contains (normWs r.name) = false) ∧
    ((expandAll cfgC1).1.2.map OutRow.key).Nodup :=
  C1_run_uniqueness cfgC1 (expandAll cfgC1).1.2 (by rfl)

/-- Counterexample to C1 as stated: a Polish run with a single candidate
row succeeds with two output rows (one per receiver) carrying the same
whitespace-normalized name, and no duplicate error is raised. -/
theorem C1_counterexample_same_name_two_rows :
    (match runGenerator cfgC1 with
     | Except.ok rows => rows.map (fun r => normWs r.name)
     | Except.error _ => []) =
      [normWs (tl "[SR HS PL] Software assistance Prod 8-17"),
       normWs (tl "[SR HS PL] Software assistance Prod 8-17")] ∧
    dupRaised cfgC1 = false :=
  ⟨by decide, by decide⟩

/-- C9 (code_bug): the no-matches half of the claim holds — an expansion
producing zero rows makes `run_generator` raise the terminal no-matches
error and write nothing — but the duplicate-propagation half diverges from
the code: on `cfgC9` a duplicate `ValueError` is raised during expansion
(source line 1580), caught and swallowed by the blanket per-sheet handler
(source lines 1851-1855), and the run still returns the rows accumulated
before the error, which are written to the output file. -/
theorem C9_error_handling :
    (∀ cfg : GenConfig, (expandAll cfg).1.2 = [] →
      runGenerator cfg = Except.error GenError.noMatches) ∧
    (dupRaised cfgC9 = true ∧
      (match runGenerator cfgC9 with
       | Except.ok rows => rows.map OutRow.name
       | Except.error _ => []) =
        [tl "[SR HS PL] Software assistance Prod 8-17"]) := by
  refine ⟨?_, by decide, by decide⟩
  intro cfg hz
  simp only [runGenerator]
  rw [if_pos hz]

/-- Witness for C9: an empty run raises the no-matches error. -/
theorem C9_error_handling_witness :
    runGenerator cfgC9empty = Except.error GenError.noMatches :=
  C9_error_handling.1 cfgC9empty (by decide)

end Offerings
